import Mathlib

/-
Verification development for the tsl -> cnf encoder (src/cnf_encoder.py).

The Python source is shallowly embedded below:
  * Python dicts become insertion-ordered association lists with the
    update-in-place semantics of dict assignment (dictSet / appendAt).
  * The encoder object state (next_var, name_to_id, clauses, t_tuple_to_cov)
    becomes the record St, threaded explicitly through each pass.
  * Python exceptions become the Err sum type threaded through Except.
    In particular, cnf_encoder._emit_conditions passes the bound method
    self._fresh_aux (which requires a positional prefix argument) as the
    parser's zero-argument new_var callback; calling it raises TypeError.
    That callback is therefore embedded as brokenNewVar, which always
    returns Err.typeError, exactly as the interpreter would.
  * option_var_cache / property_var_cache are pure memoizations of
    _new_var on the same label and are dropped: _opt_var(o, j) is
    semantically _new_var("v:o@j"), which already deduplicates by label.
-/

set_option linter.unusedVariables false

/-! ## Intermediate representation (the ir dict consumed by cnf_encoder) -/

structure OptionRec where
  name : String
  property : Option String := none
  condition : Option String := none
  single : Bool := false
  error : Bool := false
  deriving Repr, DecidableEq

structure GroupRec where
  options : List OptionRec := []
  deriving Repr, DecidableEq

structure IR where
  parameters : List (String × GroupRec) := []
  environments : List (String × GroupRec) := []
  deriving Repr, DecidableEq

structure Config where
  t : Int
  k : Int
  group_policy : String := "auto"
  require_full_coverage : Bool := true
  strict_conditions : Bool := true
  antonyms : List (String × String) := []
  deriving Repr

/-! ## Ordered-dict helpers (Python dict assignment and setdefault/append) -/

/-- Python dict assignment d[k] = v: replace in place if the key exists,
else append at the end (insertion order). -/
def dictSet {α : Type} : List (String × α) → String → α → List (String × α)
  | [], k, v => [(k, v)]
  | (k', v') :: rest, k, v =>
    if k' == k then (k, v) :: rest else (k', v') :: dictSet rest k v

/-- Python d.setdefault(k, []).append(v). -/
def appendAt : List (String × List String) → String → String → List (String × List String)
  | [], k, v => [(k, [v])]
  | (k', vs) :: rest, k, v =>
    if k' == k then (k', vs ++ [v]) :: rest else (k', vs) :: appendAt rest k v

def dictUpdate {α : Type} (d : List (String × α)) (kvs : List (String × α)) :
    List (String × α) :=
  kvs.foldl (fun d kv => dictSet d kv.1 kv.2) d

/-! ## _collect_ir: the index built in cnf_encoder.__init__ -/

structure Index where
  groups : List (String × List String)
  optionToGroup : List (String × String)
  propertyToOptions : List (String × List String)
  deriving Repr

/-- all_groups = {}; update(parameters); update(environments). -/
def allGroups (ir : IR) : List (String × GroupRec) :=
  dictUpdate (dictUpdate [] ir.parameters) ir.environments

def collectOption (gname : String) (acc : List String × Index) (o : OptionRec) :
    List String × Index :=
  let names := acc.1 ++ [o.name]
  let idx := { acc.2 with optionToGroup := dictSet acc.2.optionToGroup o.name gname }
  let idx :=
    match o.property with
    | some p => if p ≠ "" then { idx with propertyToOptions := appendAt idx.propertyToOptions p o.name } else idx
    | none => idx
  (names, idx)

def collectGroup (idx : Index) (g : String × GroupRec) : Index :=
  let r := g.2.options.foldl (collectOption g.1) ([], idx)
  { r.2 with groups := dictSet r.2.groups g.1 r.1 }

def collectIr (ir : IR) : Index :=
  (allGroups ir).foldl collectGroup ⟨[], [], []⟩

/-- _group_data: search parameters then environments, else an empty record. -/
def groupData (ir : IR) (gname : String) : GroupRec :=
  match ir.parameters.find? (fun g => g.1 == gname) with
  | some g => g.2
  | none =>
    match ir.environments.find? (fun g => g.1 == gname) with
    | some g => g.2
    | none => {}

/-! ## Variable registry (the id helpers of cnf_encoder) -/

structure St where
  nextVar : Nat
  table : List (String × Nat)
  clauses : List (List Int)
  covMap : List (List String × Nat)
  deriving Repr, DecidableEq

def initSt : St := ⟨1, [], [], []⟩

def lookupId (st : St) (l : String) : Option Nat :=
  (st.table.find? (fun p => p.1 == l)).map (fun p => p.2)

/-- _new_var: idempotent on labels, else allocate next_var. -/
def newVar (label : String) (st : St) : Nat × St :=
  match st.table.find? (fun p => p.1 == label) with
  | some p => (p.2, st)
  | none =>
    (st.nextVar,
     { st with nextVar := st.nextVar + 1, table := st.table ++ [(label, st.nextVar)] })

/-- _fresh_aux: label salted with the current next_var. -/
def freshAux (pre : String) (st : St) : Nat × St :=
  newVar (pre ++ "#" ++ toString st.nextVar) st

def optLabel (o : String) (j : Nat) : String := "v:" ++ o ++ "@" ++ toString j
def propLabel (p : String) (j : Nat) : String := "p:" ++ p ++ "@" ++ toString j
def covLabel (key : List String) : String := "c:" ++ String.intercalate "|" key

def optVar (o : String) (j : Nat) (st : St) : Nat × St := newVar (optLabel o j) st
def propVar (p : String) (j : Nat) (st : St) : Nat × St := newVar (propLabel p j) st

/-- self.add(*lits): every call site in the source passes the trailing 0
explicitly, so the stored clause ends with 0. -/
def addClause (lits : List Int) (st : St) : St :=
  { st with clauses := st.clauses ++ [lits] }

/-- range(1, k + 1) for the int-typed test-suite size k. -/
def slots (k : Int) : List Nat := (List.range k.toNat).map (fun i => i + 1)

/-- [ self._opt_var(o, j) for o in opts ]. -/
def allocVars (opts : List String) (j : Nat) (st : St) : List Nat × St :=
  match opts with
  | [] => ([], st)
  | o :: rest =>
    let r := optVar o j st
    let r' := allocVars rest j r.2
    (r.1 :: r'.1, r'.2)

/-! ## Group constraints -/

/-- itertools.combinations(l, 2) in its enumeration order. -/
def combos2 {α : Type} : List α → List (α × α)
  | [] => []
  | x :: xs => xs.map (fun y => (x, y)) ++ combos2 xs

/-- any(next((o2.get('single') for o2 in group options if o2['name'] == o), False)
for o in opts). -/
def anySingle (ir : IR) (gname : String) (opts : List String) : Bool :=
  opts.any fun o =>
    (((groupData ir gname).options.find? (fun o2 => o2.name == o)).map
        (fun o2 => o2.single)).getD false

def resolvePolicy (ir : IR) (gp gname : String) (opts : List String) : String :=
  if gp == "auto" then
    if anySingle ir gname opts then "exactly-one" else "at-most-one"
  else gp

/-- One at-most-one clause for an unordered pair of option variables. -/
def emitAmoStep (s : St) (pr : Nat × Nat) : St :=
  addClause [-(pr.1 : Int), -(pr.2 : Int), 0] s

/-- One unit ban for an error-flagged option. -/
def emitBanStep (j : Nat) (s : St) (o : OptionRec) : St :=
  if o.error then
    let rv := optVar o.name j s
    addClause [-(rv.1 : Int), 0] rv.2
  else s

def emitGroup (ir : IR) (gp : String) (j : Nat) (gname : String) (opts : List String)
    (st : St) : St :=
  let r := allocVars opts j st
  let kvars := r.1
  let policy := resolvePolicy ir gp gname opts
  let st2 := if policy == "exactly-one" then
      addClause (kvars.map Int.ofNat ++ [0]) r.2
    else r.2
  let st3 := (combos2 kvars).foldl emitAmoStep st2
  (groupData ir gname).options.foldl (emitBanStep j) st3

def emitGroupStep (ir : IR) (gp : String) (j : Nat) (s : St) (g : String × List String) : St :=
  emitGroup ir gp j g.1 g.2 s

def emitGroupsForSlot (ir : IR) (gp : String) (idx : Index) (j : Nat) (st : St) : St :=
  idx.groups.foldl (emitGroupStep ir gp j) st

def emitGroupConstraints (ir : IR) (gp : String) (idx : Index) (k : Int) (st : St) : St :=
  (slots k).foldl (fun s j => emitGroupsForSlot ir gp idx j s) st

/-! ## Property bi-implications and antonym exclusivity -/

/-- One option-implies-property clause for asserting option o. -/
def linkClauseStep (p : Nat) (j : Nat) (s : St) (o : String) : St :=
  let rv := optVar o j s
  addClause [-(rv.1 : Int), (p : Int), 0] rv.2

def emitLinkProp (j : Nat) (st : St) (pr : String × List String) : St :=
  let rp := propVar pr.1 j st
  let p := rp.1
  let st2 := pr.2.foldl (linkClauseStep p j) rp.2
  let rv := allocVars pr.2 j st2
  addClause ([-(p : Int)] ++ rv.1.map Int.ofNat ++ [0]) rv.2

def emitLinksSlot (idx : Index) (j : Nat) (st : St) : St :=
  idx.propertyToOptions.foldl (emitLinkProp j) st

/-- Lexicographic codepoint comparison of char lists: Python string <. -/
def charListLt : List Char → List Char → Bool
  | [], [] => false
  | [], _ :: _ => true
  | _ :: _, [] => false
  | c :: cs, d :: ds => c.toNat < d.toNat || (c == d && charListLt cs ds)

/-- Python string comparison a < b (lexicographic on code points). -/
def strLtB (a b : String) : Bool := charListLt a.data b.data

/-- tuple(sorted((a, b))). -/
def canonPair (a b : String) : String × String := if strLtB b a then (b, a) else (a, b)

def antonymPairsAux : List (String × String) → List (String × String) → List (String × String)
  | [], _ => []
  | ab :: rest, seen =>
    let key := canonPair ab.1 ab.2
    if seen.contains key then antonymPairsAux rest seen
    else ab :: antonymPairsAux rest (seen ++ [key])

/-- antonym_pairs: items of the antonyms mapping, de-duplicated by sorted pair. -/
def antonymPairs (ants : List (String × String)) : List (String × String) :=
  antonymPairsAux ants []

def emitAntPair (j : Nat) (st : St) (ab : String × String) : St :=
  let ra := propVar ab.1 j st
  let rb := propVar ab.2 j ra.2
  addClause [-(ra.1 : Int), -(rb.1 : Int), 0] rb.2

def emitAntonymsSlot (ants : List (String × String)) (j : Nat) (st : St) : St :=
  (antonymPairs ants).foldl (emitAntPair j) st

def emitPropsSlot (idx : Index) (ants : List (String × String)) (j : Nat) (st : St) : St :=
  emitAntonymsSlot ants j (emitLinksSlot idx j st)

def emitPropertyLinks (idx : Index) (ants : List (String × String)) (k : Int) (st : St) : St :=
  (slots k).foldl (fun s j => emitPropsSlot idx ants j s) st

/-! ## Condition parser: tokenizer, shunting-yard, tseitin -/

inductive Err where
  /-- ValueError('mismatched ) in condition') -/
  | mismatchedClose
  /-- ValueError('mismatched parens in condition') -/
  | mismatchedParens
  /-- ValueError('invalid condition expression') -/
  | invalidExpr
  /-- stk.pop() on an empty operand stack (IndexError) -/
  | indexError
  /-- KeyError(f"unknown property in condition: {name}") -/
  | unknownProperty (name : String)
  /-- self.new_var() calling the bound method _fresh_aux without its
  required prefix argument (TypeError) -/
  | typeError
  /-- itertools.combinations with a negative r (ValueError) -/
  | valueError
  deriving Repr, DecidableEq

/-- The identifier scan of condition_parser.tokenize: consume until
whitespace, an operator character, or the two-character operators. -/
def scanIdent : List Char → List Char × List Char
  | [] => ([], [])
  | c :: rest =>
    if (c == '&' && rest.head? == some '&') || (c == '|' && rest.head? == some '|')
        || c.isWhitespace || c == '!' || c == '(' || c == ')' then
      ([], c :: rest)
    else
      let r := scanIdent rest
      (c :: r.1, r.2)

theorem scanIdent_len : ∀ l : List Char, (scanIdent l).2.length ≤ l.length := by
  intro l
  induction l with
  | nil => simp [scanIdent]
  | cons c rest ih =>
    simp only [scanIdent]
    by_cases h : (c == '&' && rest.head? == some '&') || (c == '|' && rest.head? == some '|')
        || c.isWhitespace || c == '!' || c == '(' || c == ')'
    · simp [h]
    · simp only [h, if_false]
      simpa using Nat.le_succ_of_le ih

/-- The main tokenizer loop. Each iteration consumes at least one
character, so running it with the input length as structural fuel is
exact; the fuel keeps the recursion structural (hence executable by the
kernel), it never runs out. -/
def tokenizeF : Nat → List Char → List String
  | 0, _ => []
  | _ + 1, [] => []
  | fuel + 1, c :: rest =>
    if c.isWhitespace then tokenizeF fuel rest
    else if c == '&' && rest.head? == some '&' then "&&" :: tokenizeF fuel rest.tail
    else if c == '|' && rest.head? == some '|' then "||" :: tokenizeF fuel rest.tail
    else if c == '!' || c == '(' || c == ')' then String.mk [c] :: tokenizeF fuel rest
    else
      let r := scanIdent rest
      String.mk (c :: r.1) :: tokenizeF fuel r.2

def tokenize (l : List Char) : List String := tokenizeF l.length l

def precOf : String → Nat
  | "!" => 3
  | "&&" => 2
  | "||" => 1
  | _ => 0

/-- The operator-popping loop of to_rpn before pushing operator t. -/
def popOps (t : String) (out op : List String) : List String × List String :=
  match op with
  | [] => (out, [])
  | o :: rest =>
    if o != "(" && (precOf o > precOf t || (precOf o == precOf t && t != "!")) then
      popOps t (out ++ [o]) rest
    else (out, o :: rest)

/-- Pop to the output until an opening paren is on top. -/
def popUntilParen (out op : List String) : List String × List String :=
  match op with
  | [] => (out, [])
  | o :: rest => if o == "(" then (out, o :: rest) else popUntilParen (out ++ [o]) rest

def drainOps : List String → List String → Except Err (List String)
  | out, [] => .ok out
  | out, o :: rest =>
    if o == "(" || o == ")" then .error .mismatchedParens
    else drainOps (out ++ [o]) rest

def toRpnLoop : List String → List String → List String → Except Err (List String)
  | [], out, op => drainOps out op
  | t :: ts, out, op =>
    if t == "&&" || t == "||" || t == "!" then
      let r := popOps t out op
      toRpnLoop ts r.1 (t :: r.2)
    else if t == "(" then toRpnLoop ts out ("(" :: op)
    else if t == ")" then
      let r := popUntilParen out op
      match r.2 with
      | [] => .error .mismatchedClose
      | _ :: rest => toRpnLoop ts r.1 rest
    else toRpnLoop ts (out ++ [t]) op

def toRpn (tokens : List String) : Except Err (List String) := toRpnLoop tokens [] []

/-- rpn_to_tseitin, walking the RPN with an operand stack of variable ids.
The fresh-variable supplier nv and the atom hook ga are exactly the
callbacks the Python code passes in (self.new_var and get_atom_var). -/
def rpnToTseitin (nv : St → Except Err (Nat × St)) (ga : String → St → Except Err (Nat × St)) :
    List String → List Int → List (List Int) → St → Except Err (Int × List (List Int) × St)
  | [], stk, cls, st =>
    match stk with
    | [x] => .ok (x, cls, st)
    | _ => .error .invalidExpr
  | t :: ts, stk, cls, st =>
    if t == "!" then
      match stk with
      | [] => .error .indexError
      | a :: rest => do
        let r ← nv st
        let z := r.1
        rpnToTseitin nv ga ts ((z : Int) :: rest)
          (cls ++ [[(z : Int), a], [-(z : Int), -a]]) r.2
    else if t == "&&" || t == "||" then
      match stk with
      | b :: a :: rest => do
        let r ← nv st
        let z := r.1
        if t == "&&" then
          rpnToTseitin nv ga ts ((z : Int) :: rest)
            (cls ++ [[-(z : Int), a], [-(z : Int), b], [(z : Int), -a, -b]]) r.2
        else
          rpnToTseitin nv ga ts ((z : Int) :: rest)
            (cls ++ [[(z : Int), -a], [(z : Int), -b], [-(z : Int), a, b]]) r.2
      | _ => .error .indexError
    else do
      let r ← ga t st
      rpnToTseitin nv ga ts ((r.1 : Int) :: stk) cls r.2

/-- Python str.strip() on the character list. -/
def stripChars (l : List Char) : List Char :=
  ((l.dropWhile Char.isWhitespace).reverse.dropWhile Char.isWhitespace).reverse

/-- encode_condition: empty (stripped) expression denotes tautology, top 0. -/
def encodeCondition (nv : St → Except Err (Nat × St))
    (ga : String → St → Except Err (Nat × St)) (expr : String) (st : St) :
    Except Err (Int × List (List Int) × St) :=
  let e := stripChars expr.data
  if e == [] then .ok (0, [], st)
  else do
    let rpn ← toRpn (tokenize e)
    rpnToTseitin nv ga rpn [] [] st

/-! ## Condition emission -/

/-- The parser's new_var callback as actually wired in _emit_conditions:
self._fresh_aux is passed as a zero-argument callback although it requires
a prefix argument, so every call raises TypeError. -/
def brokenNewVar : St → Except Err (Nat × St) := fun _ => .error .typeError

/-- get_atom_var: property-slot variable; unknown atoms fail in strict mode. -/
def getAtomVar (idx : Index) (strict : Bool) (j : Nat) (atom : String) (st : St) :
    Except Err (Nat × St) :=
  if (idx.propertyToOptions.find? (fun pr => pr.1 == atom)).isNone then
    if strict then .error (.unknownProperty atom)
    else .ok (propVar atom j st)
  else .ok (propVar atom j st)

def emitCondOption (idx : Index) (strict : Bool) (j : Nat) (o : OptionRec) (st : St) :
    Except Err St :=
  match o.condition with
  | none => .ok st
  | some cond =>
    if cond == "" then .ok st
    else do
      let r ← encodeCondition brokenNewVar (getAtomVar idx strict j) cond st
      let top := r.1
      let st2 := r.2.2
      let st3 := r.2.1.foldl (fun s c => addClause (c ++ [0]) s) st2
      if top != 0 then
        let rv := optVar o.name j st3
        .ok (addClause [-(rv.1 : Int), top, 0] rv.2)
      else .ok st3

def emitCondOptions (idx : Index) (strict : Bool) (j : Nat) :
    List OptionRec → St → Except Err St
  | [], st => .ok st
  | o :: os, st => do
    let st' ← emitCondOption idx strict j o st
    emitCondOptions idx strict j os st'

def emitCondGroups (idx : Index) (strict : Bool) (j : Nat) :
    List (String × GroupRec) → St → Except Err St
  | [], st => .ok st
  | g :: gs, st => do
    let st' ← emitCondOptions idx strict j g.2.options st
    emitCondGroups idx strict j gs st'

def emitCondSlots (ir : IR) (idx : Index) (strict : Bool) :
    List Nat → St → Except Err St
  | [], st => .ok st
  | j :: js, st => do
    let st' ← emitCondGroups idx strict j (ir.parameters ++ ir.environments) st
    emitCondSlots ir idx strict js st'

def emitConditions (ir : IR) (idx : Index) (strict : Bool) (k : Int) (st : St) :
    Except Err St :=
  emitCondSlots ir idx strict (slots k) st

/-! ## Tuple enumeration and coverage -/

/-- itertools.combinations(l, n) in its enumeration order. -/
def combinations {α : Type} : Nat → List α → List (List α)
  | 0, _ => [[]]
  | _ + 1, [] => []
  | n + 1, x :: xs => (combinations n xs).map (fun c => x :: c) ++ combinations (n + 1) xs

/-- itertools.product(*lists) in its enumeration order. -/
def productL {α : Type} : List (List α) → List (List α)
  | [] => [[]]
  | l :: ls => (l.map (fun x => (productL ls).map (fun c => x :: c))).flatten

def insSorted (x : String) : List String → List String
  | [] => [x]
  | y :: ys => if strLtB y x then y :: insSorted x ys else x :: y :: ys

/-- sorted(tup) for a tuple of option names. -/
def sortKey : List String → List String
  | [] => []
  | x :: xs => insSorted x (sortKey xs)

def groupsGet (groups : List (String × List String)) (g : String) : List String :=
  ((groups.find? (fun pr => pr.1 == g)).map (fun pr => pr.2)).getD []

def addTupleKey (st : St) (tup : List String) : St :=
  let key := sortKey tup
  if (st.covMap.find? (fun pr => pr.1 == key)).isSome then st
  else
    let rc := newVar (covLabel key) st
    { rc.2 with covMap := rc.2.covMap ++ [(key, rc.1)] }

/-- _enumerate_tuples; itertools.combinations raises ValueError on negative r. -/
def enumerateTuples (idx : Index) (t : Int) (st : St) : Except Err St :=
  if t < 0 then .error .valueError
  else
    .ok ((combinations t.toNat (idx.groups.map (fun g => g.1))).foldl
      (fun s combo =>
        (productL (combo.map (groupsGet idx.groups))).foldl addTupleKey s) st)

/-- One indicator-implies-option clause inside _emit_coverage. -/
def covVClauseStep (aid : Nat) (s : St) (v : Nat) : St :=
  addClause [-(aid : Int), (v : Int), 0] s

/-- The body of the per-slot loop of _emit_coverage for one coverage key. -/
def covSlot (key : List String) (j : Nat) (st : St) : Nat × St :=
  let rv := allocVars key j st
  let vids := rv.1
  let ra := freshAux "a" rv.2
  let aid := ra.1
  let st3 := vids.foldl (covVClauseStep aid) ra.2
  let st4 := addClause (vids.map (fun v => -(Int.ofNat v)) ++ [(aid : Int), 0]) st3
  (aid, st4)

def covSlotsFold (key : List String) : List Nat → St → List Nat × St
  | [], st => ([], st)
  | j :: js, st =>
    let r := covSlot key j st
    let r' := covSlotsFold key js r.2
    (r.1 :: r'.1, r'.2)

def covKeyStep (fullCov : Bool) (k : Int) (st : St) (pr : List String × Nat) : St :=
  let r := covSlotsFold pr.1 (slots k) st
  let aJs := r.1
  let st2 := addClause (aJs.map Int.ofNat ++ [(pr.2 : Int), 0]) r.2
  let st3 := addClause ([-(pr.2 : Int)] ++ aJs.map Int.ofNat ++ [0]) st2
  if fullCov then addClause [(pr.2 : Int), 0] st3 else st3

def emitCoverage (fullCov : Bool) (k : Int) (st : St) : St :=
  st.covMap.foldl (covKeyStep fullCov k) st

/-! ## The encode pipeline -/

def stageGroups (ir : IR) (cfg : Config) : St :=
  emitGroupConstraints ir cfg.group_policy (collectIr ir) cfg.k initSt

def stageProps (ir : IR) (cfg : Config) : St :=
  emitPropertyLinks (collectIr ir) cfg.antonyms cfg.k (stageGroups ir cfg)

def stageConds (ir : IR) (cfg : Config) : Except Err St :=
  emitConditions ir (collectIr ir) cfg.strict_conditions cfg.k (stageProps ir cfg)

def stageTuples (ir : IR) (cfg : Config) : Except Err St := do
  enumerateTuples (collectIr ir) cfg.t (← stageConds ir cfg)

/-- encode() up to (but not including) DIMACS serialization: the final
encoder state with its clause list, variable table and next_var. -/
def encodeSt (ir : IR) (cfg : Config) : Except Err St := do
  .ok (emitCoverage cfg.require_full_coverage cfg.k (← stageTuples ir cfg))

/-- The DIMACS serialization of encode(): header plus one line per stored
clause (the stored clauses already carry their trailing 0). -/
def serialize (st : St) : String × List (String × Nat) :=
  let nvars := st.nextVar - 1
  let header := "p cnf " ++ toString nvars ++ " " ++ toString st.clauses.length
  let body := st.clauses.map (fun c => String.intercalate " " (c.map toString))
  (String.intercalate "\n" (header :: body), st.table)

def encode (ir : IR) (cfg : Config) : Except Err (String × List (String × Nat)) := do
  .ok (serialize (← encodeSt ir cfg))

/-! ## Clause semantics -/

def litSat (A : Nat → Bool) (l : Int) : Bool :=
  if 0 < l then A l.toNat else if l < 0 then !A (-l).toNat else false

def clauseSat (A : Nat → Bool) (c : List Int) : Bool := c.any (litSat A)

def cnfSat (A : Nat → Bool) (cs : List (List Int)) : Bool := cs.all (clauseSat A)

/-- Index of the first clause mentioning variable v (positively or negatively). -/
def firstIdx (cs : List (List Int)) (v : Nat) : Option Nat :=
  cs.findIdx? (fun c => c.any (fun l => l.natAbs == v))

/-! ## Concrete instances used by counterexamples and evaluations -/

/-- One group G with single option x. -/
def exC1 : IR := { parameters := [("G", { options := [{ name := "x" }] })] }

def cfgC1 : Config := { t := 1, k := 1, require_full_coverage := false }

/-- The final encoder state for exC1 / cfgC1 (checked by rfl below). -/
def stC1 : St :=
  { nextVar := 4,
    table := [("v:x@1", 1), ("c:x", 2), ("a#3", 3)],
    clauses := [[-3, 1, 0], [-1, 3, 0], [3, 2, 0], [-2, 3, 0]],
    covMap := [(["x"], 2)] }

/-- Assignment: option x chosen in slot 1 and the slot indicator true, but
the coverage variable false. -/
def aC1 : Nat → Bool := fun n => n == 1 || n == 3

theorem c1_helper_state : encodeSt exC1 cfgC1 = .ok stC1 := by rfl

/-- C1: the claim fails on the code. With require_full_coverage = false, the
emitted clauses for the only tuple key ["x"] (coverage variable 2, slot
indicator 3, option variable 1) are satisfied by an assignment in which the
option variable of slot 1 is true (so the tuple is covered: the indicator 3
is even true) while the coverage variable 2 is false. Hence c(tau) is not
true iff some slot covers tau, and the per-slot implication clause
a -> c (here [-3, 2, 0]) is not emitted and not entailed: the code emits
[3, 2, 0], all indicators positive, which its own comment calls "or(a) -> c"
but which does not encode that implication. -/
theorem c1_coverage_biimplication_bug :
    encodeSt exC1 cfgC1 = .ok stC1 ∧
    cnfSat aC1 stC1.clauses = true ∧
    aC1 1 = true ∧ aC1 3 = true ∧ aC1 2 = false ∧
    lookupId stC1 (optLabel "x" 1) = some 1 ∧
    lookupId stC1 (covLabel ["x"]) = some 2 ∧
    [-3, 2, 0] ∉ stC1.clauses := by
  refine ⟨c1_helper_state, by decide, by decide, by decide, by decide, by decide, by decide, by decide⟩

/-- Option a1 guarded by the negation of an atom n that no option asserts. -/
def exC5a : IR :=
  { parameters := [("A", { options := [{ name := "a1", condition := some "!n" }] })] }

/-- Two options guarded by the same bare unknown atom n. -/
def exC5c : IR :=
  { parameters := [("A", { options :=
      [{ name := "a1", condition := some "n" },
       { name := "a2", condition := some "n" }] })] }

def stC5c : St :=
  { nextVar := 8,
    table := [("v:a1@1", 1), ("v:a2@1", 2), ("p:n@1", 3), ("c:a1", 4), ("c:a2", 5),
              ("a#6", 6), ("a#7", 7)],
    clauses := [[-1, -2, 0], [-1, 3, 0], [-2, 3, 0],
                [-6, 1, 0], [-1, 6, 0], [6, 4, 0], [-4, 6, 0], [4, 0],
                [-7, 2, 0], [-2, 7, 0], [7, 5, 0], [-5, 7, 0], [5, 0]],
    covMap := [(["a1"], 4), (["a2"], 5)] }

/-- C5: evaluation of the code at the failing input. In lenient mode the
guard "!n" does not succeed as the claim states: the Tseitin step for the
operator calls the parser's fresh-variable callback, which is the bound
method _fresh_aux passed without its required prefix argument, so encoding
aborts with a TypeError. Strict mode does fail with unknown-property as
claimed (the atom is resolved before the operator is processed). For an
operator-free guard the lenient path works and the unknown atom resolves to
one per-slot property variable (id 3 here), allocated at its first use by
option a1 and reused by option a2 in the same slot. -/
theorem c5_lenient_condition_evaluation :
    encodeSt exC5a { t := 1, k := 1, strict_conditions := false } = .error .typeError ∧
    encodeSt exC5a { t := 1, k := 1, strict_conditions := true } =
      .error (.unknownProperty "n") ∧
    encodeSt exC5c { t := 1, k := 1, strict_conditions := false } = .ok stC5c ∧
    lookupId stC5c (propLabel "n" 1) = some 3 ∧
    [-1, 3, 0] ∈ stC5c.clauses ∧ [-2, 3, 0] ∈ stC5c.clauses := by
  refine ⟨rfl, rfl, rfl, by decide, by decide, by decide⟩

/-- The option name x appears in both group A and group B. -/
def exC6 : IR :=
  { parameters := [("A", { options := [{ name := "x" }] }),
                   ("B", { options := [{ name := "x" }] })] }

def stC6 : St :=
  { nextVar := 4,
    table := [("v:x@1", 1), ("c:x", 2), ("a#3", 3)],
    clauses := [[-3, 1, 0], [-1, 3, 0], [3, 2, 0], [-2, 3, 0], [2, 0]],
    covMap := [(["x"], 2)] }

/-- C6 counterexample: an IR with the option name x in two groups is claimed
to abort the encoder, but encode() completes and produces an artifact. -/
theorem c6_duplicate_option_accepted :
    encodeSt exC6 { t := 1, k := 1 } = .ok stC6 := by rfl

/-- C6 amended: the encoder performs none of the claimed validation.
Duplicate option names across groups are accepted (the option is silently
reassigned), a group with zero options is accepted, t = 0 is accepted,
t exceeding the number of groups is accepted (empty coverage), k = 0 is
accepted, and only a negative t aborts, with the ValueError raised by
itertools.combinations during tuple enumeration rather than by any
validation step. -/
theorem c6_no_validation :
    (encodeSt exC6 { t := 1, k := 1 }).isOk = true ∧
    (encodeSt { parameters := [("A", { options := [] })] } { t := 0, k := 1 }).isOk = true ∧
    (encodeSt exC6 { t := 0, k := 1 }).isOk = true ∧
    (encodeSt exC6 { t := 3, k := 1 }).isOk = true ∧
    (encodeSt exC6 { t := 1, k := 0 }).isOk = true ∧
    encodeSt exC6 { t := -1, k := 1 } = .error .valueError := by
  refine ⟨rfl, rfl, rfl, rfl, rfl, rfl⟩

/-- One group with two options x and y, producing an at-most-one clause. -/
def exC7 : IR :=
  { parameters := [("A", { options := [{ name := "x" }, { name := "y" }] })] }

def stC7 : St :=
  { nextVar := 7,
    table := [("v:x@1", 1), ("v:y@1", 2), ("c:x", 3), ("c:y", 4), ("a#5", 5), ("a#6", 6)],
    clauses := [[-1, -2, 0],
                [-5, 1, 0], [-1, 5, 0], [5, 3, 0], [-3, 5, 0], [3, 0],
                [-6, 2, 0], [-2, 6, 0], [6, 4, 0], [-4, 6, 0], [4, 0]],
    covMap := [(["x"], 3), (["y"], 4)] }

/-- C7 counterexample: the in-memory clause accumulator stores the DIMACS
terminating 0 as the last element of every clause (every self.add call site
passes it), so clauses do not consist only of non-zero ids: the at-most-one
clause is stored as [-1, -2, 0]. -/
theorem c7_zero_stored_in_clause :
    encodeSt exC7 { t := 1, k := 1 } = .ok stC7 ∧
    [-1, -2, 0] ∈ stC7.clauses ∧ (0 : Int) ∈ ([-1, -2, 0] : List Int) := by
  refine ⟨rfl, by decide, by decide⟩

/-- One group, t = 2 > number of groups. -/
def exC8 : IR := { parameters := [("G", { options := [{ name := "x" }] })] }

/-- C8 counterexample: with t = 2 exceeding the single group, the option
variable 1 is allocated (nvars = next_var - 1 = 1) but the clause list is
empty, so the set of ids used in clauses is empty, not {1}. -/
theorem c8_unused_allocated_id :
    encodeSt exC8 { t := 2, k := 1 } = .ok ⟨2, [("v:x@1", 1)], [], []⟩ ∧
    ¬∃ c ∈ ([] : List (List Int)), ∃ l ∈ c, l.natAbs = 1 := by
  refine ⟨rfl, by simp⟩

/-- Group G1 with option b inserted before group G2 with option a. -/
def exC9 : IR :=
  { parameters := [("G1", { options := [{ name := "b" }] }),
                   ("G2", { options := [{ name := "a" }] })] }

def stC9 : St :=
  { nextVar := 7,
    table := [("v:b@1", 1), ("v:a@1", 2), ("c:b", 3), ("c:a", 4), ("a#5", 5), ("a#6", 6)],
    clauses := [[-5, 1, 0], [-1, 5, 0], [5, 3, 0], [-3, 5, 0], [3, 0],
                [-6, 2, 0], [-2, 6, 0], [6, 4, 0], [-4, 6, 0], [4, 0]],
    covMap := [(["b"], 3), (["a"], 4)] }

/-- Boolean lexicographic order on canonical tuple keys. -/
def keyLt : List String → List String → Bool
  | [], [] => false
  | [], _ :: _ => true
  | _ :: _, [] => false
  | x :: xs, y :: ys => strLtB x y || (x == y && keyLt xs ys)

/-- C9 counterexample: tuple keys are iterated in insertion order of
t_tuple_to_cov, not lexicographically. Key ["b"] (coverage variable 3) is
enumerated before key ["a"] (coverage variable 4) because group G1 precedes
G2, so the whole coverage clause block of ["b"] (first clause at index 0)
precedes the block of ["a"] (first clause at index 5) although
["a"] < ["b"] lexicographically. -/
theorem c9_insertion_order_not_lex :
    encodeSt exC9 { t := 1, k := 1 } = .ok stC9 ∧
    stC9.covMap.map Prod.fst = [["b"], ["a"]] ∧
    lookupId stC9 (covLabel ["b"]) = some 3 ∧
    lookupId stC9 (covLabel ["a"]) = some 4 ∧
    keyLt ["a"] ["b"] = true ∧
    firstIdx stC9.clauses 3 = some 2 ∧
    firstIdx stC9.clauses 4 = some 7 := by
  refine ⟨rfl, by decide, by decide, by decide, by decide, by decide, by decide⟩

/-! ## Append-only evolution of the encoder state -/

/-- Each emission step only advances next_var and appends to the table,
the clause list and the coverage map. -/
def StStep (s s' : St) : Prop :=
  s.nextVar ≤ s'.nextVar ∧
  (∃ t, s'.table = s.table ++ t) ∧
  (∃ cs, s'.clauses = s.clauses ++ cs) ∧
  (∃ cv, s'.covMap = s.covMap ++ cv)

theorem StStep.refl (s : St) : StStep s s :=
  ⟨le_rfl, ⟨[], by simp⟩, ⟨[], by simp⟩, ⟨[], by simp⟩⟩

theorem StStep.trans {a b c : St} (h1 : StStep a b) (h2 : StStep b c) : StStep a c := by
  obtain ⟨n1, ⟨t1, ht1⟩, ⟨c1, hc1⟩, ⟨v1, hv1⟩⟩ := h1
  obtain ⟨n2, ⟨t2, ht2⟩, ⟨c2, hc2⟩, ⟨v2, hv2⟩⟩ := h2
  exact ⟨le_trans n1 n2, ⟨t1 ++ t2, by simp [ht2, ht1]⟩,
    ⟨c1 ++ c2, by simp [hc2, hc1]⟩, ⟨v1 ++ v2, by simp [hv2, hv1]⟩⟩

theorem find?_append_left {α : Type} (p : α → Bool) (l1 l2 : List α) (x : α)
    (h : l1.find? p = some x) : (l1 ++ l2).find? p = some x := by
  induction l1 with
  | nil => simp [List.find?] at h
  | cons a as ih =>
    rw [List.cons_append, List.find?]
    rw [List.find?] at h
    cases hp : p a with
    | true => simp only [hp] at h ⊢; exact h
    | false => simp only [hp] at h ⊢; exact ih h

theorem find?_append_none {α : Type} (p : α → Bool) (l1 l2 : List α)
    (h : l1.find? p = none) : (l1 ++ l2).find? p = l2.find? p := by
  induction l1 with
  | nil => simp
  | cons a as ih =>
    rw [List.cons_append, List.find?]
    rw [List.find?] at h
    cases hp : p a with
    | true => simp only [hp] at h; exact absurd h (by simp)
    | false => simp only [hp] at h ⊢; exact ih h

theorem lookupId_step {s s' : St} {l : String} {v : Nat}
    (hs : StStep s s') (h : lookupId s l = some v) : lookupId s' l = some v := by
  obtain ⟨-, ⟨t, ht⟩, -, -⟩ := hs
  unfold lookupId at h ⊢
  rw [ht]
  cases hf : s.table.find? (fun p => p.1 == l) with
  | none => simp [hf] at h
  | some p =>
    rw [find?_append_left _ _ _ _ hf]
    simpa [hf] using h

theorem newVar_step (l : String) (st : St) : StStep st (newVar l st).2 := by
  unfold newVar
  cases st.table.find? (fun p => p.1 == l) with
  | some p => exact StStep.refl st
  | none => exact ⟨Nat.le_succ _, ⟨[(l, st.nextVar)], rfl⟩, ⟨[], by simp⟩, ⟨[], by simp⟩⟩

theorem freshAux_step (pre : String) (st : St) : StStep st (freshAux pre st).2 :=
  newVar_step _ st

theorem optVar_step (o : String) (j : Nat) (st : St) : StStep st (optVar o j st).2 :=
  newVar_step _ st

theorem propVar_step (p : String) (j : Nat) (st : St) : StStep st (propVar p j st).2 :=
  newVar_step _ st

theorem addClause_step (lits : List Int) (st : St) : StStep st (addClause lits st) :=
  ⟨le_rfl, ⟨[], by simp [addClause]⟩, ⟨[lits], rfl⟩, ⟨[], by simp [addClause]⟩⟩

theorem newVar_lookup (l : String) (st : St) :
    lookupId (newVar l st).2 l = some (newVar l st).1 := by
  unfold newVar lookupId
  cases hf : st.table.find? (fun p => p.1 == l) with
  | some p => simp [hf]
  | none => simp [find?_append_none _ _ _ hf, List.find?]

theorem allocVars_step (opts : List String) (j : Nat) (st : St) :
    StStep st (allocVars opts j st).2 := by
  induction opts generalizing st with
  | nil => exact StStep.refl st
  | cons o rest ih =>
    exact StStep.trans (optVar_step o j st) (ih (optVar o j st).2)

theorem foldl_step {α : Type} {f : St → α → St} (h : ∀ st a, StStep st (f st a)) :
    ∀ (l : List α) (st : St), StStep st (l.foldl f st) := by
  intro l
  induction l with
  | nil => intro st; exact StStep.refl st
  | cons a as ih => intro st; exact StStep.trans (h st a) (ih (f st a))

/-- Generic invariant preservation through List.foldl over the state. -/
theorem foldl_pres {α : Type} {f : St → α → St} {P : St → Prop} :
    ∀ (l : List α), (∀ st a, a ∈ l → P st → P (f st a)) →
      ∀ st, P st → P (l.foldl f st) := by
  intro l
  induction l with
  | nil => intro _ st h; exact h
  | cons a as ih =>
    intro h st hP
    exact ih (fun st' b hb => h st' b (List.mem_cons_of_mem a hb))
      (f st a) (h st a (List.mem_cons_self a as) hP)

/-! ## The registry and clause well-formedness invariant -/

def GoodTable (st : St) : Prop :=
  1 ≤ st.nextVar ∧
  (∀ p ∈ st.table, 1 ≤ p.2 ∧ p.2 < st.nextVar) ∧
  (st.table.map Prod.fst).Nodup ∧
  (st.table.map Prod.snd).Nodup ∧
  (∀ i, 1 ≤ i → i < st.nextVar → ∃ l, (l, i) ∈ st.table)

/-- All literals non-zero with variables below the allocation frontier. -/
def GoodLits (n : Nat) (lits : List Int) : Prop := ∀ x ∈ lits, x ≠ 0 ∧ x.natAbs < n

/-- A stored clause: its literals followed by the stored trailing 0. -/
def GoodClause (n : Nat) (c : List Int) : Prop :=
  ∃ lits, c = lits ++ [0] ∧ GoodLits n lits

def Good (st : St) : Prop :=
  GoodTable st ∧ (∀ c ∈ st.clauses, GoodClause st.nextVar c) ∧
    (∀ pr ∈ st.covMap, 1 ≤ pr.2 ∧ pr.2 < st.nextVar)

theorem goodLits_mono {n n' : Nat} (h : n ≤ n') {lits : List Int}
    (hg : GoodLits n lits) : GoodLits n' lits :=
  fun x hx => ⟨(hg x hx).1, lt_of_lt_of_le (hg x hx).2 h⟩

theorem goodClause_mono {n n' : Nat} (h : n ≤ n') {c : List Int}
    (hg : GoodClause n c) : GoodClause n' c := by
  obtain ⟨lits, he, hl⟩ := hg
  exact ⟨lits, he, goodLits_mono h hl⟩

theorem initSt_good : Good initSt := by
  refine ⟨⟨le_rfl, by simp [initSt], by simp [initSt], by simp [initSt], ?_⟩,
    by simp [initSt], by simp [initSt]⟩
  intro i h1 h2
  simp [initSt] at h2
  exact absurd (h2 ▸ h1) (by simp)

theorem newVar_good {st : St} (l : String) (h : Good st) :
    Good (newVar l st).2 ∧ 1 ≤ (newVar l st).1 ∧
      (newVar l st).1 < (newVar l st).2.nextVar := by
  obtain ⟨⟨h1, h2, h3, h4, h5⟩, hc, hv⟩ := h
  unfold newVar
  cases hf : st.table.find? (fun p => p.1 == l) with
  | some p =>
    have hm := List.mem_of_find?_eq_some hf
    exact ⟨⟨⟨h1, h2, h3, h4, h5⟩, hc, hv⟩, (h2 p hm).1, (h2 p hm).2⟩
  | none =>
    have hkey : ∀ q ∈ st.table, q.1 ≠ l := by
      intro q hq
      have := List.find?_eq_none.mp hf q hq
      simpa using this
    refine ⟨⟨⟨le_trans h1 (Nat.le_succ _), ?_, ?_, ?_, ?_⟩, ?_, ?_⟩, h1, Nat.lt_succ_self _⟩
    · intro p hp
      rcases List.mem_append.mp hp with hp | hp
      · exact ⟨(h2 p hp).1, lt_trans (h2 p hp).2 (Nat.lt_succ_self _)⟩
      · simp at hp; subst hp; exact ⟨h1, Nat.lt_succ_self _⟩
    · rw [List.map_append, List.nodup_append]
      refine ⟨h3, by simp, ?_⟩
      intro a ha hb
      simp at hb; subst hb
      obtain ⟨q, hq, hq1⟩ := List.mem_map.mp ha
      exact hkey q hq hq1
    · rw [List.map_append, List.nodup_append]
      refine ⟨h4, by simp, ?_⟩
      intro a ha hb
      simp at hb; subst hb
      obtain ⟨q, hq, hq1⟩ := List.mem_map.mp ha
      exact absurd (hq1 ▸ (h2 q hq).2) (lt_irrefl _)
    · intro i hi1 hi2
      rcases Nat.lt_succ_iff_lt_or_eq.mp hi2 with hlt | heq
      · obtain ⟨l', hl'⟩ := h5 i hi1 hlt
        exact ⟨l', List.mem_append.mpr (Or.inl hl')⟩
      · exact ⟨l, List.mem_append.mpr (Or.inr (by simp [heq]))⟩
    · intro c hcm
      exact goodClause_mono (Nat.le_succ _) (hc c hcm)
    · intro pr hpr
      exact ⟨(hv pr hpr).1, lt_trans (hv pr hpr).2 (Nat.lt_succ_self _)⟩

theorem freshAux_good {st : St} (pre : String) (h : Good st) :
    Good (freshAux pre st).2 ∧ 1 ≤ (freshAux pre st).1 ∧
      (freshAux pre st).1 < (freshAux pre st).2.nextVar :=
  newVar_good _ h

theorem optVar_good {st : St} (o : String) (j : Nat) (h : Good st) :
    Good (optVar o j st).2 ∧ 1 ≤ (optVar o j st).1 ∧
      (optVar o j st).1 < (optVar o j st).2.nextVar :=
  newVar_good _ h

theorem propVar_good {st : St} (p : String) (j : Nat) (h : Good st) :
    Good (propVar p j st).2 ∧ 1 ≤ (propVar p j st).1 ∧
      (propVar p j st).1 < (propVar p j st).2.nextVar :=
  newVar_good _ h

theorem addClause_good {st : St} {c : List Int} (h : Good st)
    (hc : GoodClause st.nextVar c) : Good (addClause c st) := by
  obtain ⟨ht, hcl, hv⟩ := h
  refine ⟨ht, ?_, hv⟩
  intro c' hc'
  rcases List.mem_append.mp hc' with hm | hm
  · exact hcl c' hm
  · simp at hm; subst hm; exact hc

theorem allocVars_good {opts : List String} {j : Nat} {st : St} (h : Good st) :
    Good (allocVars opts j st).2 ∧
      ∀ v ∈ (allocVars opts j st).1, 1 ≤ v ∧ v < (allocVars opts j st).2.nextVar := by
  induction opts generalizing st with
  | nil => exact ⟨h, by simp [allocVars]⟩
  | cons o rest ih =>
    obtain ⟨hg, h1, h2⟩ := optVar_good o j h
    obtain ⟨hg', hb⟩ := ih hg
    have hstep := allocVars_step rest j (optVar o j st).2
    refine ⟨hg', ?_⟩
    intro v hv
    simp only [allocVars] at hv
    rcases List.mem_cons.mp hv with hv | hv
    · subst hv
      exact ⟨h1, lt_of_lt_of_le h2 hstep.1⟩
    · exact hb v hv


/-! ## Invariant preservation: group constraints -/

theorem combos2_mem {α : Type} : ∀ (l : List α) (a b : α),
    (a, b) ∈ combos2 l → a ∈ l ∧ b ∈ l := by
  intro l
  induction l with
  | nil => intro a b h; simp [combos2] at h
  | cons x xs ih =>
    intro a b h
    simp only [combos2, List.mem_append] at h
    rcases h with h | h
    · obtain ⟨y, hy, he⟩ := List.mem_map.mp h
      cases he
      exact ⟨List.mem_cons_self x xs, List.mem_cons_of_mem x hy⟩
    · obtain ⟨ha, hb⟩ := ih a b h
      exact ⟨List.mem_cons_of_mem x ha, List.mem_cons_of_mem x hb⟩

theorem intOfNat_eq (v : Nat) : Int.ofNat v = (v : Int) := rfl

theorem lit_pos_good {n v : Nat} (h1 : 1 ≤ v) (h2 : v < n) :
    (v : Int) ≠ 0 ∧ ((v : Int)).natAbs < n := by
  constructor
  · exact_mod_cast Nat.one_le_iff_ne_zero.mp h1
  · simpa using h2

theorem lit_neg_good {n v : Nat} (h1 : 1 ≤ v) (h2 : v < n) :
    -(v : Int) ≠ 0 ∧ (-(v : Int)).natAbs < n := by
  obtain ⟨a, b⟩ := lit_pos_good h1 h2
  exact ⟨neg_ne_zero.mpr a, by simpa [Int.natAbs_neg] using b⟩

theorem emitAmoStep_step (s : St) (pr : Nat × Nat) : StStep s (emitAmoStep s pr) :=
  addClause_step _ _

theorem emitBanStep_step (j : Nat) (s : St) (o : OptionRec) :
    StStep s (emitBanStep j s o) := by
  unfold emitBanStep
  split
  · exact StStep.trans (optVar_step o.name j s) (addClause_step _ _)
  · exact StStep.refl _

theorem emitGroup_step (ir : IR) (gp : String) (j : Nat) (gname : String)
    (opts : List String) (st : St) : StStep st (emitGroup ir gp j gname opts st) := by
  unfold emitGroup
  refine StStep.trans (allocVars_step opts j st) ?_
  refine StStep.trans ?_ (foldl_step (emitBanStep_step j) _ _)
  refine StStep.trans ?_ (foldl_step emitAmoStep_step _ _)
  split
  · exact addClause_step _ _
  · exact StStep.refl _

theorem emitAmoStep_good {s : St} {n : Nat} (pr : Nat × Nat) (h : Good s)
    (h1 : 1 ≤ pr.1) (h2 : pr.1 < n) (h3 : 1 ≤ pr.2) (h4 : pr.2 < n)
    (hn : n ≤ s.nextVar) : Good (emitAmoStep s pr) := by
  refine addClause_good h ⟨[-(pr.1 : Int), -(pr.2 : Int)], rfl, ?_⟩
  intro x hx
  rcases List.mem_cons.mp hx with rfl | hx
  · exact lit_neg_good h1 (lt_of_lt_of_le h2 hn)
  · rcases List.mem_cons.mp hx with rfl | hx
    · exact lit_neg_good h3 (lt_of_lt_of_le h4 hn)
    · simp at hx

theorem emitBanStep_good (j : Nat) {s : St} (o : OptionRec) (h : Good s) :
    Good (emitBanStep j s o) := by
  unfold emitBanStep
  split
  · obtain ⟨hg, hv1, hv2⟩ := optVar_good o.name j h
    refine addClause_good hg ⟨[-((optVar o.name j s).1 : Int)], rfl, ?_⟩
    intro x hx
    rcases List.mem_cons.mp hx with rfl | hx
    · exact lit_neg_good hv1 hv2
    · simp at hx
  · exact h

theorem emitGroup_good (ir : IR) (gp : String) (j : Nat) (gname : String)
    (opts : List String) {st : St} (h : Good st) :
    Good (emitGroup ir gp j gname opts st) := by
  unfold emitGroup
  obtain ⟨h1, hb⟩ := @allocVars_good opts j _ h
  have halo : Good (if resolvePolicy ir gp gname opts == "exactly-one" then
        addClause ((allocVars opts j st).1.map Int.ofNat ++ [0]) (allocVars opts j st).2
      else (allocVars opts j st).2) ∧
      (allocVars opts j st).2.nextVar ≤ (if resolvePolicy ir gp gname opts == "exactly-one" then
        addClause ((allocVars opts j st).1.map Int.ofNat ++ [0]) (allocVars opts j st).2
      else (allocVars opts j st).2).nextVar := by
    split
    · refine ⟨addClause_good h1 ⟨(allocVars opts j st).1.map Int.ofNat, rfl, ?_⟩, le_rfl⟩
      intro x hx
      obtain ⟨v, hv, rfl⟩ := List.mem_map.mp hx
      rw [intOfNat_eq]
      exact lit_pos_good (hb v hv).1 (hb v hv).2
    · exact ⟨h1, le_rfl⟩
  have hamo := foldl_pres
    (P := fun s => Good s ∧ (allocVars opts j st).2.nextVar ≤ s.nextVar)
    (combos2 (allocVars opts j st).1)
    (fun s pr hpr hP => by
      obtain ⟨ha, hb2⟩ := combos2_mem _ pr.1 pr.2 (by simpa using hpr)
      exact ⟨emitAmoStep_good pr hP.1 (hb _ ha).1 (hb _ ha).2 (hb _ hb2).1 (hb _ hb2).2 hP.2,
        hP.2⟩)
    _ halo
  exact foldl_pres (P := Good) _ (fun s o _ hg => emitBanStep_good j o hg) _ hamo.1

theorem emitGroupStep_step (ir : IR) (gp : String) (j : Nat) :
    ∀ (s : St) (g : String × List String), StStep s (emitGroupStep ir gp j s g) :=
  fun s g => emitGroup_step ir gp j g.1 g.2 s

theorem emitGroupsForSlot_step (ir : IR) (gp : String) (idx : Index) (j : Nat) (st : St) :
    StStep st (emitGroupsForSlot ir gp idx j st) := by
  unfold emitGroupsForSlot
  exact foldl_step (emitGroupStep_step ir gp j) idx.groups st

theorem emitGroupConstraints_step (ir : IR) (gp : String) (idx : Index) (k : Int)
    (st : St) : StStep st (emitGroupConstraints ir gp idx k st) := by
  unfold emitGroupConstraints
  exact foldl_step (fun (s : St) (j : Nat) => emitGroupsForSlot_step ir gp idx j s) _ st

theorem emitGroupConstraints_good (ir : IR) (gp : String) (idx : Index) (k : Int)
    {st : St} (h : Good st) : Good (emitGroupConstraints ir gp idx k st) := by
  unfold emitGroupConstraints
  refine foldl_pres (P := Good) _ (fun s j _ hg => ?_) _ h
  exact foldl_pres (P := Good) _ (fun s g _ hg' => emitGroup_good ir gp j g.1 g.2 hg') _ hg

/-! ## Invariant preservation: property links -/

theorem linkClauseStep_step (p j : Nat) : ∀ (s : St) (o : String),
    StStep s (linkClauseStep p j s o) :=
  fun s o => StStep.trans (optVar_step o j s) (addClause_step _ _)

theorem emitLinkProp_step (j : Nat) (st : St) (pr : String × List String) :
    StStep st (emitLinkProp j st pr) := by
  unfold emitLinkProp
  refine StStep.trans (propVar_step pr.1 j st) ?_
  refine StStep.trans
    (foldl_step (linkClauseStep_step (propVar pr.1 j st).1 j) pr.2 (propVar pr.1 j st).2) ?_
  exact StStep.trans (allocVars_step pr.2 j _) (addClause_step _ _)

theorem linkClauseStep_good {p j : Nat} {s : St} (o : String) (h : Good s)
    (hp1 : 1 ≤ p) (hp2 : p < s.nextVar) : Good (linkClauseStep p j s o) := by
  unfold linkClauseStep
  obtain ⟨hg, hv1, hv2⟩ := optVar_good o j h
  have hp2' : p < (optVar o j s).2.nextVar := lt_of_lt_of_le hp2 (optVar_step o j s).1
  refine addClause_good hg ⟨[-((optVar o j s).1 : Int), (p : Int)], rfl, ?_⟩
  intro x hx
  rcases List.mem_cons.mp hx with rfl | hx
  · exact lit_neg_good hv1 hv2
  · rcases List.mem_cons.mp hx with rfl | hx
    · exact lit_pos_good hp1 hp2'
    · simp at hx

theorem emitLinkProp_good (j : Nat) {st : St} (pr : String × List String)
    (h : Good st) : Good (emitLinkProp j st pr) := by
  unfold emitLinkProp
  obtain ⟨h1, hp1, hp2⟩ := propVar_good pr.1 j h
  have h3 := foldl_pres
    (P := fun s => Good s ∧ (propVar pr.1 j st).1 < s.nextVar) pr.2
    (fun s o ho hP =>
      ⟨linkClauseStep_good o hP.1 hp1 hP.2,
        lt_of_lt_of_le hP.2 (linkClauseStep_step _ j s o).1⟩)
    (propVar pr.1 j st).2 ⟨h1, hp2⟩
  obtain ⟨h4, hbv⟩ := @allocVars_good pr.2 j _ h3.1
  have hp3 : (propVar pr.1 j st).1 <
      (allocVars pr.2 j (pr.2.foldl (linkClauseStep (propVar pr.1 j st).1 j)
        (propVar pr.1 j st).2)).2.nextVar :=
    lt_of_lt_of_le h3.2 (allocVars_step pr.2 j _).1
  refine addClause_good h4
    ⟨[-((propVar pr.1 j st).1 : Int)] ++
      (allocVars pr.2 j (pr.2.foldl (linkClauseStep (propVar pr.1 j st).1 j)
        (propVar pr.1 j st).2)).1.map Int.ofNat, by simp, ?_⟩
  intro x hx
  rcases List.mem_append.mp hx with hx | hx
  · rcases List.mem_cons.mp hx with rfl | hx
    · exact lit_neg_good hp1 hp3
    · simp at hx
  · obtain ⟨v, hv, rfl⟩ := List.mem_map.mp hx
    rw [intOfNat_eq]
    exact lit_pos_good (hbv v hv).1 (hbv v hv).2

theorem emitAntPair_step (j : Nat) (st : St) (ab : String × String) :
    StStep st (emitAntPair j st ab) := by
  unfold emitAntPair
  exact StStep.trans (propVar_step ab.1 j st)
    (StStep.trans (propVar_step ab.2 j _) (addClause_step _ _))

theorem emitAntPair_good (j : Nat) {st : St} (ab : String × String) (h : Good st) :
    Good (emitAntPair j st ab) := by
  unfold emitAntPair
  obtain ⟨h1, ha1, ha2⟩ := propVar_good ab.1 j h
  obtain ⟨h2, hb1, hb2⟩ := propVar_good ab.2 j h1
  have ha2' : (propVar ab.1 j st).1 < (propVar ab.2 j (propVar ab.1 j st).2).2.nextVar :=
    lt_of_lt_of_le ha2 (propVar_step ab.2 j _).1
  refine addClause_good h2
    ⟨[-((propVar ab.1 j st).1 : Int), -((propVar ab.2 j (propVar ab.1 j st).2).1 : Int)],
      rfl, ?_⟩
  intro x hx
  rcases List.mem_cons.mp hx with rfl | hx
  · exact lit_neg_good ha1 ha2'
  · rcases List.mem_cons.mp hx with rfl | hx
    · exact lit_neg_good hb1 hb2
    · simp at hx

theorem emitLinksSlot_step (idx : Index) (j : Nat) (st : St) :
    StStep st (emitLinksSlot idx j st) := by
  unfold emitLinksSlot
  exact foldl_step (emitLinkProp_step j) idx.propertyToOptions st

theorem emitAntonymsSlot_step (ants : List (String × String)) (j : Nat) (st : St) :
    StStep st (emitAntonymsSlot ants j st) := by
  unfold emitAntonymsSlot
  exact foldl_step (emitAntPair_step j) (antonymPairs ants) st

theorem emitPropsSlot_step (idx : Index) (ants : List (String × String)) (j : Nat)
    (st : St) : StStep st (emitPropsSlot idx ants j st) :=
  StStep.trans (emitLinksSlot_step idx j st) (emitAntonymsSlot_step ants j _)

theorem emitPropertyLinks_step (idx : Index) (ants : List (String × String)) (k : Int)
    (st : St) : StStep st (emitPropertyLinks idx ants k st) := by
  unfold emitPropertyLinks
  exact foldl_step (fun (s : St) (j : Nat) => emitPropsSlot_step idx ants j s) _ st

theorem emitPropertyLinks_good (idx : Index) (ants : List (String × String)) (k : Int)
    {st : St} (h : Good st) : Good (emitPropertyLinks idx ants k st) := by
  unfold emitPropertyLinks
  refine foldl_pres (P := Good) _ (fun s j _ hg => ?_) _ h
  unfold emitPropsSlot
  refine foldl_pres (P := Good) _ (fun s ab _ hg' => emitAntPair_good j ab hg') _ ?_
  exact foldl_pres (P := Good) _ (fun s pr _ hg' => emitLinkProp_good j pr hg') _ hg

/-! ## Invariant preservation: conditions -/

def StackOK (n : Nat) (stk : List Int) : Prop := ∀ x ∈ stk, 0 < x ∧ x.natAbs < n

def ClsOK (n : Nat) (cls : List (List Int)) : Prop := ∀ c ∈ cls, GoodLits n c

theorem stackOK_mono {n n' : Nat} (h : n ≤ n') {stk : List Int}
    (hs : StackOK n stk) : StackOK n' stk :=
  fun x hx => ⟨(hs x hx).1, lt_of_lt_of_le (hs x hx).2 h⟩

theorem clsOK_mono {n n' : Nat} (h : n ≤ n') {cls : List (List Int)}
    (hs : ClsOK n cls) : ClsOK n' cls :=
  fun c hc => goodLits_mono h (hs c hc)

/-- A fresh-variable or atom-resolution callback that respects the state
discipline whenever it succeeds. -/
def SupplierOK (f : St → Except Err (Nat × St)) : Prop :=
  ∀ st z st', f st = .ok (z, st') →
    StStep st st' ∧ (Good st → Good st' ∧ 1 ≤ z ∧ z < st'.nextVar)

theorem brokenNewVar_ok : SupplierOK brokenNewVar := by
  intro st z st' h
  simp [brokenNewVar] at h

theorem getAtomVar_ok (idx : Index) (strict : Bool) (j : Nat) (a : String) :
    SupplierOK (getAtomVar idx strict j a) := by
  intro st z st' h
  unfold getAtomVar at h
  have hpv : propVar a j st = (z, st') → StStep st st' ∧
      (Good st → Good st' ∧ 1 ≤ z ∧ z < st'.nextVar) := by
    intro he
    constructor
    · have h1 := propVar_step a j st
      rw [he] at h1
      exact h1
    · intro hg
      obtain ⟨g1, g2, g3⟩ := propVar_good a j hg
      rw [he] at g1 g2 g3
      exact ⟨g1, g2, g3⟩
  split at h
  · split at h
    · exact absurd h (by simp)
    · exact hpv (by injection h)
  · exact hpv (by injection h)

theorem rpnToTseitin_good (nv : St → Except Err (Nat × St))
    (ga : String → St → Except Err (Nat × St))
    (hnv : SupplierOK nv) (hga : ∀ a, SupplierOK (ga a)) :
    ∀ (rpn : List String) (stk : List Int) (cls : List (List Int)) (st : St)
      {top : Int} {cls' : List (List Int)} {st' : St},
      rpnToTseitin nv ga rpn stk cls st = .ok (top, cls', st') →
      StStep st st' ∧
      (Good st → StackOK st.nextVar stk → ClsOK st.nextVar cls →
        Good st' ∧ 0 < top ∧ top.natAbs < st'.nextVar ∧ ClsOK st'.nextVar cls') := by
  intro rpn
  induction rpn with
  | nil =>
    intro stk cls st top cls' st' h
    match stk with
    | [] => simp [rpnToTseitin] at h
    | [x] =>
      simp only [rpnToTseitin] at h
      injection h with h'
      have hx : x = top := congrArg (fun r => r.1) h'
      have hc : cls = cls' := congrArg (fun r => r.2.1) h'
      have hs : st = st' := congrArg (fun r => r.2.2) h'
      subst hx hc hs
      refine ⟨StStep.refl st, fun hg hstk hcls => ?_⟩
      exact ⟨hg, (hstk x (by simp)).1, (hstk x (by simp)).2, hcls⟩
    | x :: y :: rest => simp [rpnToTseitin] at h
  | cons t ts ih =>
    intro stk cls st top cls' st' h
    simp only [rpnToTseitin] at h
    by_cases h1 : t == "!"
    · simp only [h1, if_true] at h
      match stk, h with
      | a :: rest, h =>
        cases hnvr : nv st with
        | error e =>
          rw [hnvr] at h
          replace h : (Except.error e : Except Err (Int × List (List Int) × St)) =
              Except.ok (top, cls', st') := h
          simp at h
        | ok r =>
          rw [hnvr] at h
          replace h : rpnToTseitin nv ga ts ((r.1 : Int) :: rest)
              (cls ++ [[(r.1 : Int), a], [-(r.1 : Int), -a]]) r.2 =
              .ok (top, cls', st') := h
          obtain ⟨hstep1, hg1⟩ := hnv st r.1 r.2 (by rw [hnvr])
          obtain ⟨hstep2, hrest⟩ := ih _ _ _ h
          refine ⟨StStep.trans hstep1 hstep2, fun hg hstk hcls => ?_⟩
          obtain ⟨hg', hz1, hz2⟩ := hg1 hg
          have ha := hstk a (by simp)
          have hstk' : StackOK r.2.nextVar ((r.1 : Int) :: rest) := by
            intro x hx
            rcases List.mem_cons.mp hx with rfl | hx
            · exact ⟨by exact_mod_cast hz1, by simpa using hz2⟩
            · exact stackOK_mono hstep1.1 (fun y hy => hstk y (List.mem_cons_of_mem a hy)) x hx
          have hcls' : ClsOK r.2.nextVar (cls ++ [[(r.1 : Int), a], [-(r.1 : Int), -a]]) := by
            intro c hc
            rcases List.mem_append.mp hc with hc | hc
            · exact clsOK_mono hstep1.1 hcls c hc
            · have ha' : a ≠ 0 ∧ a.natAbs < r.2.nextVar :=
                ⟨ne_of_gt ha.1, lt_of_lt_of_le ha.2 hstep1.1⟩
              rcases List.mem_cons.mp hc with rfl | hc
              · intro x hx
                rcases List.mem_cons.mp hx with rfl | hx
                · exact lit_pos_good hz1 hz2
                · rcases List.mem_cons.mp hx with rfl | hx
                  · exact ha'
                  · simp at hx
              · rcases List.mem_cons.mp hc with rfl | hc
                · intro x hx
                  rcases List.mem_cons.mp hx with rfl | hx
                  · exact lit_neg_good hz1 hz2
                  · rcases List.mem_cons.mp hx with rfl | hx
                    · exact ⟨by simpa using ha'.1, by simpa [Int.natAbs_neg] using ha'.2⟩
                    · simp at hx
                · simp at hc
          exact hrest hg' hstk' hcls'
    · by_cases h2 : t == "&&" || t == "||"
      · simp only [h1, h2, if_false, if_true] at h
        match stk, h with
        | b :: a :: rest, h =>
          cases hnvr : nv st with
          | error e =>
            rw [hnvr] at h
            replace h : (Except.error e : Except Err (Int × List (List Int) × St)) =
                Except.ok (top, cls', st') := h
            simp at h
          | ok r =>
            rw [hnvr] at h
            replace h : (if t == "&&" then
                rpnToTseitin nv ga ts ((r.1 : Int) :: rest)
                  (cls ++ [[-(r.1 : Int), a], [-(r.1 : Int), b], [(r.1 : Int), -a, -b]]) r.2
              else
                rpnToTseitin nv ga ts ((r.1 : Int) :: rest)
                  (cls ++ [[(r.1 : Int), -a], [(r.1 : Int), -b], [-(r.1 : Int), a, b]]) r.2) =
                .ok (top, cls', st') := h
            obtain ⟨hstep1, hg1⟩ := hnv st r.1 r.2 (by rw [hnvr])
            have main : ∀ (newcls : List (List Int)),
                (∀ c ∈ newcls, ∀ x ∈ c,
                  (x = (r.1 : Int) ∨ x = -(r.1 : Int)) ∨
                  (x = a ∨ x = -a) ∨ (x = b ∨ x = -b)) →
                rpnToTseitin nv ga ts ((r.1 : Int) :: rest) (cls ++ newcls) r.2 =
                  .ok (top, cls', st') →
                StStep st st' ∧
                (Good st → StackOK st.nextVar (b :: a :: rest) → ClsOK st.nextVar cls →
                  Good st' ∧ 0 < top ∧ top.natAbs < st'.nextVar ∧ ClsOK st'.nextVar cls') := by
              intro newcls hnew hrec
              obtain ⟨hstep2, hrest⟩ := ih _ _ _ hrec
              refine ⟨StStep.trans hstep1 hstep2, fun hg hstk hcls => ?_⟩
              obtain ⟨hg', hz1, hz2⟩ := hg1 hg
              have ha := hstk a (by simp)
              have hb := hstk b (by simp)
              have hstk' : StackOK r.2.nextVar ((r.1 : Int) :: rest) := by
                intro x hx
                rcases List.mem_cons.mp hx with rfl | hx
                · exact ⟨by exact_mod_cast hz1, by simpa using hz2⟩
                · exact stackOK_mono hstep1.1
                    (fun y hy => hstk y (by simp [hy])) x hx
              have hcls' : ClsOK r.2.nextVar (cls ++ newcls) := by
                intro c hc
                rcases List.mem_append.mp hc with hc | hc
                · exact clsOK_mono hstep1.1 hcls c hc
                · intro x hx
                  rcases hnew c hc x hx with (rfl | rfl) | (rfl | rfl) | (rfl | rfl)
                  · exact lit_pos_good hz1 hz2
                  · exact lit_neg_good hz1 hz2
                  · exact ⟨ne_of_gt ha.1, lt_of_lt_of_le ha.2 hstep1.1⟩
                  · exact ⟨by simpa using ne_of_gt ha.1,
                      by simpa [Int.natAbs_neg] using lt_of_lt_of_le ha.2 hstep1.1⟩
                  · exact ⟨ne_of_gt hb.1, lt_of_lt_of_le hb.2 hstep1.1⟩
                  · exact ⟨by simpa using ne_of_gt hb.1,
                      by simpa [Int.natAbs_neg] using lt_of_lt_of_le hb.2 hstep1.1⟩
              exact hrest hg' hstk' hcls'
            by_cases h3 : t == "&&"
            · rw [if_pos h3] at h
              refine main _ ?_ h
              intro c hc x hx
              rcases List.mem_cons.mp hc with rfl | hc
              · rcases List.mem_cons.mp hx with rfl | hx
                · exact Or.inl (Or.inr rfl)
                · rcases List.mem_cons.mp hx with rfl | hx
                  · exact Or.inr (Or.inl (Or.inl rfl))
                  · simp at hx
              · rcases List.mem_cons.mp hc with rfl | hc
                · rcases List.mem_cons.mp hx with rfl | hx
                  · exact Or.inl (Or.inr rfl)
                  · rcases List.mem_cons.mp hx with rfl | hx
                    · exact Or.inr (Or.inr (Or.inl rfl))
                    · simp at hx
                · rcases List.mem_cons.mp hc with rfl | hc
                  · rcases List.mem_cons.mp hx with rfl | hx
                    · exact Or.inl (Or.inl rfl)
                    · rcases List.mem_cons.mp hx with rfl | hx
                      · exact Or.inr (Or.inl (Or.inr rfl))
                      · rcases List.mem_cons.mp hx with rfl | hx
                        · exact Or.inr (Or.inr (Or.inr rfl))
                        · simp at hx
                  · simp at hc
            · rw [if_neg h3] at h
              refine main _ ?_ h
              intro c hc x hx
              rcases List.mem_cons.mp hc with rfl | hc
              · rcases List.mem_cons.mp hx with rfl | hx
                · exact Or.inl (Or.inl rfl)
                · rcases List.mem_cons.mp hx with rfl | hx
                  · exact Or.inr (Or.inl (Or.inr rfl))
                  · simp at hx
              · rcases List.mem_cons.mp hc with rfl | hc
                · rcases List.mem_cons.mp hx with rfl | hx
                  · exact Or.inl (Or.inl rfl)
                  · rcases List.mem_cons.mp hx with rfl | hx
                    · exact Or.inr (Or.inr (Or.inr rfl))
                    · simp at hx
                · rcases List.mem_cons.mp hc with rfl | hc
                  · rcases List.mem_cons.mp hx with rfl | hx
                    · exact Or.inl (Or.inr rfl)
                    · rcases List.mem_cons.mp hx with rfl | hx
                      · exact Or.inr (Or.inl (Or.inl rfl))
                      · rcases List.mem_cons.mp hx with rfl | hx
                        · exact Or.inr (Or.inr (Or.inl rfl))
                        · simp at hx
                  · simp at hc
      · simp only [h1, h2, if_false] at h
        cases hgar : ga t st with
        | error e =>
          rw [hgar] at h
          replace h : (Except.error e : Except Err (Int × List (List Int) × St)) =
              Except.ok (top, cls', st') := h
          simp at h
        | ok r =>
          rw [hgar] at h
          replace h : rpnToTseitin nv ga ts ((r.1 : Int) :: stk) cls r.2 =
              .ok (top, cls', st') := h
          obtain ⟨hstep1, hg1⟩ := hga t st r.1 r.2 (by rw [hgar])
          obtain ⟨hstep2, hrest⟩ := ih _ _ _ h
          refine ⟨StStep.trans hstep1 hstep2, fun hg hstk hcls => ?_⟩
          obtain ⟨hg', hz1, hz2⟩ := hg1 hg
          have hstk' : StackOK r.2.nextVar ((r.1 : Int) :: stk) := by
            intro x hx
            rcases List.mem_cons.mp hx with rfl | hx
            · exact ⟨by exact_mod_cast hz1, by simpa using hz2⟩
            · exact stackOK_mono hstep1.1 hstk x hx
          exact hrest hg' hstk' (clsOK_mono hstep1.1 hcls)

theorem encodeCondition_good (nv : St → Except Err (Nat × St))
    (ga : String → St → Except Err (Nat × St))
    (hnv : SupplierOK nv) (hga : ∀ a, SupplierOK (ga a))
    (expr : String) (st : St) {top : Int} {cls' : List (List Int)} {st' : St}
    (h : encodeCondition nv ga expr st = .ok (top, cls', st')) :
    StStep st st' ∧ (Good st → Good st' ∧ ClsOK st'.nextVar cls' ∧
      (top ≠ 0 → 0 < top ∧ top.natAbs < st'.nextVar)) := by
  simp only [encodeCondition] at h
  split at h
  · injection h with h'
    have h1 : (0 : Int) = top := congrArg (fun r => r.1) h'
    have h2 : ([] : List (List Int)) = cls' := congrArg (fun r => r.2.1) h'
    have h3 : st = st' := congrArg (fun r => r.2.2) h'
    subst h1 h2 h3
    exact ⟨StStep.refl st, fun hg =>
      ⟨hg, by intro c hc; simp at hc, fun hne => absurd rfl hne⟩⟩
  · cases hrpn : toRpn (tokenize (stripChars expr.data)) with
    | error e =>
      rw [hrpn] at h
      replace h : (Except.error e : Except Err (Int × List (List Int) × St)) =
          Except.ok (top, cls', st') := h
      simp at h
    | ok rpn =>
      rw [hrpn] at h
      replace h : rpnToTseitin nv ga rpn [] [] st = .ok (top, cls', st') := h
      obtain ⟨hstep, hrest⟩ := rpnToTseitin_good nv ga hnv hga rpn [] [] st h
      refine ⟨hstep, fun hg => ?_⟩
      obtain ⟨g1, g2, g3, g4⟩ := hrest hg (by intro x hx; simp at hx)
        (by intro c hc; simp at hc)
      exact ⟨g1, g4, fun _ => ⟨g2, g3⟩⟩

theorem emitCondOption_good (idx : Index) (strict : Bool) (j : Nat) (o : OptionRec)
    {st st' : St} (h : emitCondOption idx strict j o st = .ok st') :
    StStep st st' ∧ (Good st → Good st') := by
  unfold emitCondOption at h
  cases hcond : o.condition with
  | none =>
    rw [hcond] at h
    replace h : (Except.ok st : Except Err St) = .ok st' := h
    injection h with h'
    subst h'
    exact ⟨StStep.refl st, id⟩
  | some cond =>
    rw [hcond] at h
    replace h : (if cond == "" then (Except.ok st : Except Err St)
        else do
          let r ← encodeCondition brokenNewVar (getAtomVar idx strict j) cond st
          let top := r.1
          let st2 := r.2.2
          let st3 := r.2.1.foldl (fun s c => addClause (c ++ [0]) s) st2
          if top != 0 then
            let rv := optVar o.name j st3
            .ok (addClause [-(rv.1 : Int), top, 0] rv.2)
          else .ok st3) = .ok st' := h
    by_cases hemp : cond == ""
    · rw [if_pos hemp] at h
      injection h with h'
      subst h'
      exact ⟨StStep.refl st, id⟩
    · rw [if_neg hemp] at h
      cases henc : encodeCondition brokenNewVar (getAtomVar idx strict j) cond st with
      | error e =>
        rw [henc] at h
        replace h : (Except.error e : Except Err St) = Except.ok st' := h
        simp at h
      | ok r =>
        rw [henc] at h
        replace h : (if r.1 != 0 then
            Except.ok (addClause
              [-(((optVar o.name j
                  (r.2.1.foldl (fun s c => addClause (c ++ [0]) s) r.2.2)).1 : Int)), r.1, 0]
              (optVar o.name j
                (r.2.1.foldl (fun s c => addClause (c ++ [0]) s) r.2.2)).2)
          else Except.ok (r.2.1.foldl (fun s c => addClause (c ++ [0]) s) r.2.2)) =
          Except.ok st' := h
        obtain ⟨hstep1, hrest1⟩ :=
          encodeCondition_good brokenNewVar (getAtomVar idx strict j)
            brokenNewVar_ok (getAtomVar_ok idx strict j) cond st henc
        have hfoldstep : StStep r.2.2
            (r.2.1.foldl (fun s c => addClause (c ++ [0]) s) r.2.2) :=
          foldl_step (fun s c => addClause_step (c ++ [0]) s) r.2.1 r.2.2
        have hfoldgood : Good st → Good
            (r.2.1.foldl (fun s c => addClause (c ++ [0]) s) r.2.2) := by
          intro hg
          obtain ⟨g1, g2, g3⟩ := hrest1 hg
          have := foldl_pres (f := fun s c => addClause (c ++ [0]) s)
            (P := fun s => Good s ∧ s.nextVar = r.2.2.nextVar) r.2.1
            (fun s c hc hP => by
              refine ⟨addClause_good hP.1 ⟨c, rfl, ?_⟩, hP.2⟩
              rw [hP.2]
              exact g2 c hc)
            r.2.2 ⟨g1, rfl⟩
          exact this.1
        have hfoldnv : (r.2.1.foldl (fun s c => addClause (c ++ [0]) s) r.2.2).nextVar =
            r.2.2.nextVar := by
          have := foldl_pres (f := fun s c => addClause (c ++ [0]) s)
            (P := fun s => s.nextVar = r.2.2.nextVar) r.2.1
            (fun s c hc hP => hP) r.2.2 rfl
          exact this
        by_cases htop : r.1 != 0
        · rw [if_pos htop] at h
          injection h with h'
          subst h'
          have hne : r.1 ≠ 0 := bne_iff_ne.mp htop
          set stf := r.2.1.foldl (fun s c => addClause (c ++ [0]) s) r.2.2
          refine ⟨StStep.trans hstep1 (StStep.trans hfoldstep
            (StStep.trans (optVar_step o.name j stf) (addClause_step _ _))), ?_⟩
          intro hg
          obtain ⟨g1, g2, g3⟩ := hrest1 hg
          obtain ⟨gv, hv1, hv2⟩ := optVar_good o.name j (hfoldgood hg)
          refine addClause_good gv ⟨[-((optVar o.name j stf).1 : Int), r.1], rfl, ?_⟩
          intro x hx
          rcases List.mem_cons.mp hx with rfl | hx
          · exact lit_neg_good hv1 hv2
          · rcases List.mem_cons.mp hx with rfl | hx
            · obtain ⟨t1, t2⟩ := g3 hne
              refine ⟨hne, ?_⟩
              have hlt : r.1.natAbs < stf.nextVar := by rw [hfoldnv]; exact t2
              exact lt_of_lt_of_le hlt (optVar_step o.name j stf).1
            · simp at hx
        · rw [if_neg htop] at h
          injection h with h'
          subst h'
          exact ⟨StStep.trans hstep1 hfoldstep, hfoldgood⟩

theorem emitCondOptions_good (idx : Index) (strict : Bool) (j : Nat) :
    ∀ (os : List OptionRec) (st st' : St), emitCondOptions idx strict j os st = .ok st' →
      StStep st st' ∧ (Good st → Good st') := by
  intro os
  induction os with
  | nil =>
    intro st st' h
    unfold emitCondOptions at h
    injection h with h'
    subst h'
    exact ⟨StStep.refl st, id⟩
  | cons o os ih =>
    intro st st' h
    unfold emitCondOptions at h
    cases ho : emitCondOption idx strict j o st with
    | error e =>
      rw [ho] at h
      replace h : (Except.error e : Except Err St) = Except.ok st' := h
      simp at h
    | ok st1 =>
      rw [ho] at h
      replace h : emitCondOptions idx strict j os st1 = .ok st' := h
      obtain ⟨s1, g1⟩ := emitCondOption_good idx strict j o ho
      obtain ⟨s2, g2⟩ := ih st1 st' h
      exact ⟨StStep.trans s1 s2, fun hg => g2 (g1 hg)⟩

theorem emitCondGroups_good (idx : Index) (strict : Bool) (j : Nat) :
    ∀ (gs : List (String × GroupRec)) (st st' : St),
      emitCondGroups idx strict j gs st = .ok st' →
      StStep st st' ∧ (Good st → Good st') := by
  intro gs
  induction gs with
  | nil =>
    intro st st' h
    unfold emitCondGroups at h
    injection h with h'
    subst h'
    exact ⟨StStep.refl st, id⟩
  | cons g gs ih =>
    intro st st' h
    unfold emitCondGroups at h
    cases ho : emitCondOptions idx strict j g.2.options st with
    | error e =>
      rw [ho] at h
      replace h : (Except.error e : Except Err St) = Except.ok st' := h
      simp at h
    | ok st1 =>
      rw [ho] at h
      replace h : emitCondGroups idx strict j gs st1 = .ok st' := h
      obtain ⟨s1, g1⟩ := emitCondOptions_good idx strict j g.2.options st st1 ho
      obtain ⟨s2, g2⟩ := ih st1 st' h
      exact ⟨StStep.trans s1 s2, fun hg => g2 (g1 hg)⟩

theorem emitCondSlots_good (ir : IR) (idx : Index) (strict : Bool) :
    ∀ (js : List Nat) (st st' : St), emitCondSlots ir idx strict js st = .ok st' →
      StStep st st' ∧ (Good st → Good st') := by
  intro js
  induction js with
  | nil =>
    intro st st' h
    unfold emitCondSlots at h
    injection h with h'
    subst h'
    exact ⟨StStep.refl st, id⟩
  | cons j js ih =>
    intro st st' h
    unfold emitCondSlots at h
    cases ho : emitCondGroups idx strict j (ir.parameters ++ ir.environments) st with
    | error e =>
      rw [ho] at h
      replace h : (Except.error e : Except Err St) = Except.ok st' := h
      simp at h
    | ok st1 =>
      rw [ho] at h
      replace h : emitCondSlots ir idx strict js st1 = .ok st' := h
      obtain ⟨s1, g1⟩ := emitCondGroups_good idx strict j _ st st1 ho
      obtain ⟨s2, g2⟩ := ih st1 st' h
      exact ⟨StStep.trans s1 s2, fun hg => g2 (g1 hg)⟩

theorem emitConditions_good (ir : IR) (idx : Index) (strict : Bool) (k : Int)
    {st st' : St} (h : emitConditions ir idx strict k st = .ok st') :
    StStep st st' ∧ (Good st → Good st') :=
  emitCondSlots_good ir idx strict (slots k) st st' h

/-! ## Invariant preservation: tuples and coverage -/

theorem addTupleKey_eq (st : St) (tup : List String) :
    addTupleKey st tup =
      if (st.covMap.find? (fun pr => pr.1 == sortKey tup)).isSome then st
      else { (newVar (covLabel (sortKey tup)) st).2 with
        covMap := (newVar (covLabel (sortKey tup)) st).2.covMap ++
          [(sortKey tup, (newVar (covLabel (sortKey tup)) st).1)] } := rfl

theorem addTupleKey_step (st : St) (tup : List String) : StStep st (addTupleKey st tup) := by
  rw [addTupleKey_eq]
  split
  · exact StStep.refl st
  · refine StStep.trans (newVar_step (covLabel (sortKey tup)) st) ?_
    exact ⟨le_rfl, ⟨[], by simp⟩, ⟨[], by simp⟩,
      ⟨[(sortKey tup, (newVar (covLabel (sortKey tup)) st).1)], rfl⟩⟩

theorem addTupleKey_good {st : St} (tup : List String) (h : Good st) :
    Good (addTupleKey st tup) := by
  rw [addTupleKey_eq]
  split
  · exact h
  · obtain ⟨⟨ht, hc, hv⟩, h1, h2⟩ := newVar_good (covLabel (sortKey tup)) h
    refine ⟨ht, hc, ?_⟩
    intro pr hpr
    rcases List.mem_append.mp hpr with hm | hm
    · exact hv pr hm
    · simp at hm
      rw [hm]
      exact ⟨h1, h2⟩

theorem enumerateTuples_step (idx : Index) (t : Int) {st st' : St}
    (h : enumerateTuples idx t st = .ok st') : StStep st st' := by
  unfold enumerateTuples at h
  split at h
  · simp at h
  · injection h with h'
    subst h'
    refine foldl_step (fun (s : St) combo => ?_) _ st
    exact foldl_step addTupleKey_step _ s

theorem enumerateTuples_good (idx : Index) (t : Int) {st st' : St}
    (h : enumerateTuples idx t st = .ok st') (hg : Good st) : Good st' := by
  unfold enumerateTuples at h
  split at h
  · simp at h
  · injection h with h'
    subst h'
    refine foldl_pres (P := Good) _ (fun s combo _ hg' => ?_) _ hg
    exact foldl_pres (P := Good) _ (fun s' tup _ hg'' => addTupleKey_good tup hg'') _ hg'

theorem covVClauseStep_step (aid : Nat) : ∀ (s : St) (v : Nat),
    StStep s (covVClauseStep aid s v) :=
  fun s v => addClause_step _ s

theorem covSlot_step (key : List String) (j : Nat) (st : St) :
    StStep st (covSlot key j st).2 := by
  unfold covSlot
  refine StStep.trans (allocVars_step key j st) ?_
  refine StStep.trans (freshAux_step "a" (allocVars key j st).2) ?_
  refine StStep.trans
    (foldl_step (covVClauseStep_step (freshAux "a" (allocVars key j st).2).1)
      (allocVars key j st).1 (freshAux "a" (allocVars key j st).2).2)
    (addClause_step _ _)

theorem covSlot_good (key : List String) (j : Nat) {st : St} (h : Good st) :
    Good (covSlot key j st).2 ∧ 1 ≤ (covSlot key j st).1 ∧
      (covSlot key j st).1 < (covSlot key j st).2.nextVar := by
  unfold covSlot
  obtain ⟨h1, hbv⟩ := @allocVars_good key j _ h
  obtain ⟨h2, ha1, ha2⟩ := freshAux_good "a" h1
  have hfr := freshAux_step "a" (allocVars key j st).2
  have h3 := foldl_pres
    (P := fun s => Good s ∧ (freshAux "a" (allocVars key j st).2).2.nextVar ≤ s.nextVar)
    (allocVars key j st).1
    (fun s v hv hP => by
      refine ⟨addClause_good hP.1
        ⟨[-((freshAux "a" (allocVars key j st).2).1 : Int), (v : Int)], rfl, ?_⟩, hP.2⟩
      intro x hx
      rcases List.mem_cons.mp hx with rfl | hx
      · exact lit_neg_good ha1 (lt_of_lt_of_le ha2 hP.2)
      · rcases List.mem_cons.mp hx with rfl | hx
        · exact lit_pos_good (hbv v hv).1
            (lt_of_lt_of_le (lt_of_lt_of_le (hbv v hv).2 hfr.1) hP.2)
        · simp at hx)
    (freshAux "a" (allocVars key j st).2).2 ⟨h2, le_rfl⟩
  refine ⟨addClause_good h3.1
    ⟨(allocVars key j st).1.map (fun v => -(Int.ofNat v)) ++
      [((freshAux "a" (allocVars key j st).2).1 : Int)], by simp, ?_⟩,
    ha1, lt_of_lt_of_le ha2 h3.2⟩
  intro x hx
  rcases List.mem_append.mp hx with hx | hx
  · obtain ⟨v, hv, rfl⟩ := List.mem_map.mp hx
    rw [intOfNat_eq]
    exact lit_neg_good (hbv v hv).1
      (lt_of_lt_of_le (lt_of_lt_of_le (hbv v hv).2 hfr.1) h3.2)
  · rcases List.mem_cons.mp hx with rfl | hx
    · exact lit_pos_good ha1 (lt_of_lt_of_le ha2 h3.2)
    · simp at hx

theorem covSlotsFold_step (key : List String) : ∀ (js : List Nat) (st : St),
    StStep st (covSlotsFold key js st).2 := by
  intro js
  induction js with
  | nil => intro st; exact StStep.refl st
  | cons j js ih =>
    intro st
    exact StStep.trans (covSlot_step key j st) (ih (covSlot key j st).2)

theorem covSlotsFold_good (key : List String) : ∀ (js : List Nat) {st : St}, Good st →
    Good (covSlotsFold key js st).2 ∧
      ∀ a ∈ (covSlotsFold key js st).1, 1 ≤ a ∧ a < (covSlotsFold key js st).2.nextVar := by
  intro js
  induction js with
  | nil =>
    intro st h
    exact ⟨h, by simp [covSlotsFold]⟩
  | cons j js ih =>
    intro st h
    obtain ⟨g1, a1, a2⟩ := covSlot_good key j h
    obtain ⟨g2, hb⟩ := ih g1
    simp only [covSlotsFold]
    refine ⟨g2, ?_⟩
    intro a ha
    rcases List.mem_cons.mp ha with rfl | ha
    · exact ⟨a1, lt_of_lt_of_le a2 (covSlotsFold_step key js (covSlot key j st).2).1⟩
    · exact hb a ha

theorem covKeyStep_eq (fullCov : Bool) (k : Int) (s : St) (pr : List String × Nat) :
    covKeyStep fullCov k s pr =
      (if fullCov then
        addClause [(pr.2 : Int), 0]
          (addClause ([-(pr.2 : Int)] ++ (covSlotsFold pr.1 (slots k) s).1.map Int.ofNat ++ [0])
            (addClause ((covSlotsFold pr.1 (slots k) s).1.map Int.ofNat ++ [(pr.2 : Int), 0])
              (covSlotsFold pr.1 (slots k) s).2))
      else
        addClause ([-(pr.2 : Int)] ++ (covSlotsFold pr.1 (slots k) s).1.map Int.ofNat ++ [0])
          (addClause ((covSlotsFold pr.1 (slots k) s).1.map Int.ofNat ++ [(pr.2 : Int), 0])
            (covSlotsFold pr.1 (slots k) s).2)) := rfl

theorem covKeyStep_step (fullCov : Bool) (k : Int) : ∀ (s : St) (pr : List String × Nat),
    StStep s (covKeyStep fullCov k s pr) := by
  intro s pr
  rw [covKeyStep_eq]
  have base : StStep s
      (addClause ([-(pr.2 : Int)] ++ (covSlotsFold pr.1 (slots k) s).1.map Int.ofNat ++ [0])
        (addClause ((covSlotsFold pr.1 (slots k) s).1.map Int.ofNat ++ [(pr.2 : Int), 0])
          (covSlotsFold pr.1 (slots k) s).2)) :=
    StStep.trans (covSlotsFold_step pr.1 (slots k) s)
      (StStep.trans (addClause_step _ _) (addClause_step _ _))
  split
  · exact StStep.trans base (addClause_step _ _)
  · exact base

theorem covKeyStep_good (fullCov : Bool) (k : Int) {s : St} (pr : List String × Nat)
    (h : Good s) (hc1 : 1 ≤ pr.2) (hc2 : pr.2 < s.nextVar) :
    Good (covKeyStep fullCov k s pr) := by
  rw [covKeyStep_eq]
  obtain ⟨g1, hb⟩ := covSlotsFold_good pr.1 (slots k) h
  have hcl : pr.2 < (covSlotsFold pr.1 (slots k) s).2.nextVar :=
    lt_of_lt_of_le hc2 (covSlotsFold_step pr.1 (slots k) s).1
  have g2 : Good (addClause ((covSlotsFold pr.1 (slots k) s).1.map Int.ofNat ++
      [(pr.2 : Int), 0]) (covSlotsFold pr.1 (slots k) s).2) := by
    refine addClause_good g1
      ⟨(covSlotsFold pr.1 (slots k) s).1.map Int.ofNat ++ [(pr.2 : Int)], by simp, ?_⟩
    intro x hx
    rcases List.mem_append.mp hx with hx | hx
    · obtain ⟨v, hv, rfl⟩ := List.mem_map.mp hx
      rw [intOfNat_eq]
      exact lit_pos_good (hb v hv).1 (hb v hv).2
    · rcases List.mem_cons.mp hx with rfl | hx
      · exact lit_pos_good hc1 hcl
      · simp at hx
  have g3 : Good (addClause ([-(pr.2 : Int)] ++
      (covSlotsFold pr.1 (slots k) s).1.map Int.ofNat ++ [0])
      (addClause ((covSlotsFold pr.1 (slots k) s).1.map Int.ofNat ++
        [(pr.2 : Int), 0]) (covSlotsFold pr.1 (slots k) s).2)) := by
    refine addClause_good g2
      ⟨[-(pr.2 : Int)] ++ (covSlotsFold pr.1 (slots k) s).1.map Int.ofNat, by simp, ?_⟩
    intro x hx
    rcases List.mem_append.mp hx with hx | hx
    · rcases List.mem_cons.mp hx with rfl | hx
      · exact lit_neg_good hc1 hcl
      · simp at hx
    · obtain ⟨v, hv, rfl⟩ := List.mem_map.mp hx
      rw [intOfNat_eq]
      exact lit_pos_good (hb v hv).1 (hb v hv).2
  split
  · refine addClause_good g3 ⟨[(pr.2 : Int)], rfl, ?_⟩
    intro x hx
    rcases List.mem_cons.mp hx with rfl | hx
    · exact lit_pos_good hc1 hcl
    · simp at hx
  · exact g3

theorem emitCoverage_step (fullCov : Bool) (k : Int) (st : St) :
    StStep st (emitCoverage fullCov k st) := by
  unfold emitCoverage
  exact foldl_step (covKeyStep_step fullCov k) st.covMap st

theorem emitCoverage_good (fullCov : Bool) (k : Int) {st : St} (h : Good st) :
    Good (emitCoverage fullCov k st) := by
  unfold emitCoverage
  have hres := foldl_pres (P := fun s => Good s ∧ st.nextVar ≤ s.nextVar) st.covMap
    (fun s pr hpr hP =>
      ⟨covKeyStep_good fullCov k pr hP.1 (h.2.2 pr hpr).1
        (lt_of_lt_of_le (h.2.2 pr hpr).2 hP.2),
       le_trans hP.2 (covKeyStep_step fullCov k s pr).1⟩)
    st ⟨h, le_rfl⟩
  exact hres.1

/-! ## Invariants of the full pipeline -/

theorem stageGroups_good (ir : IR) (cfg : Config) : Good (stageGroups ir cfg) :=
  emitGroupConstraints_good _ _ _ _ initSt_good

theorem stageProps_good (ir : IR) (cfg : Config) : Good (stageProps ir cfg) :=
  emitPropertyLinks_good _ _ _ (stageGroups_good ir cfg)

theorem stageTuples_good (ir : IR) (cfg : Config) {st : St}
    (h : stageTuples ir cfg = .ok st) :
    Good st ∧ StStep (stageProps ir cfg) st := by
  unfold stageTuples at h
  cases hc : stageConds ir cfg with
  | error e =>
    rw [hc] at h
    replace h : (Except.error e : Except Err St) = Except.ok st := h
    simp at h
  | ok s0 =>
    rw [hc] at h
    replace h : enumerateTuples (collectIr ir) cfg.t s0 = .ok st := h
    obtain ⟨s1, g1⟩ := emitConditions_good ir (collectIr ir) cfg.strict_conditions cfg.k hc
    exact ⟨enumerateTuples_good _ _ h (g1 (stageProps_good ir cfg)),
      StStep.trans s1 (enumerateTuples_step _ _ h)⟩

theorem encodeSt_good (ir : IR) (cfg : Config) {st : St}
    (h : encodeSt ir cfg = .ok st) :
    Good st ∧ StStep (stageProps ir cfg) st := by
  unfold encodeSt at h
  cases hT : stageTuples ir cfg with
  | error e =>
    rw [hT] at h
    replace h : (Except.error e : Except Err St) = Except.ok st := h
    simp at h
  | ok s1 =>
    rw [hT] at h
    replace h : (Except.ok (emitCoverage cfg.require_full_coverage cfg.k s1) :
        Except Err St) = Except.ok st := h
    injection h with h'
    subst h'
    obtain ⟨g1, s2⟩ := stageTuples_good ir cfg hT
    exact ⟨emitCoverage_good _ _ g1,
      StStep.trans s2 (emitCoverage_step cfg.require_full_coverage cfg.k s1)⟩

/-- C7 amended: every clause stored in the in-memory accumulator consists of
its non-zero literals followed by the DIMACS terminating 0 as the stored
last element (every self.add call site passes the 0 explicitly), so the 0
is present in memory exactly once, in final position, and never among the
literals. -/
theorem c7_clause_shape (ir : IR) (cfg : Config) (st : St)
    (h : encodeSt ir cfg = .ok st) :
    ∀ c ∈ st.clauses, ∃ lits, c = lits ++ [0] ∧ ∀ x ∈ lits, x ≠ 0 := by
  intro c hc
  obtain ⟨lits, he, hl⟩ := (encodeSt_good ir cfg h).1.2.1 c hc
  exact ⟨lits, he, fun x hx => (hl x hx).1⟩

/-- C7 witness: the stored at-most-one clause of the exC7 run decomposes as
its non-zero literals followed by the trailing 0. -/
theorem c7_clause_shape_witness :
    ∃ lits, ([-1, -2, 0] : List Int) = lits ++ [0] ∧ ∀ x ∈ lits, x ≠ 0 :=
  c7_clause_shape exC7 { t := 1, k := 1 } stC7 (by rfl) [-1, -2, 0] (by decide)

/-- C8 amended: allocated variable ids always form the contiguous range
[1, next_var), and every literal of every stored clause uses a variable in
that range; however (per the counterexample) an allocated id need not occur
in any clause, so the set of ids used in clauses can be a strict subset of
the header range. -/
theorem c8_contiguous_ids (ir : IR) (cfg : Config) (st : St)
    (h : encodeSt ir cfg = .ok st) :
    (∀ i, (∃ l, (l, i) ∈ st.table) ↔ (1 ≤ i ∧ i < st.nextVar)) ∧
    (∀ c ∈ st.clauses, ∀ x ∈ c, x.natAbs < st.nextVar) := by
  obtain ⟨⟨⟨h1, h2, h3, h4, h5⟩, hc, hv⟩, hs⟩ := encodeSt_good ir cfg h
  constructor
  · intro i
    constructor
    · rintro ⟨l, hl⟩
      exact h2 (l, i) hl
    · rintro ⟨hi1, hi2⟩
      exact h5 i hi1 hi2
  · intro c hcm x hx
    obtain ⟨lits, he, hl⟩ := hc c hcm
    subst he
    rcases List.mem_append.mp hx with hx | hx
    · exact (hl x hx).2
    · simp at hx
      subst hx
      simpa using h1

/-- C8 witness: in the exC6 run the id 1 is allocated, so by contiguity it
carries a label in the table. -/
theorem c8_contiguous_ids_witness : ∃ l, (l, 1) ∈ stC6.table :=
  ((c8_contiguous_ids exC6 { t := 1, k := 1 } stC6 (by rfl)).1 1).mpr
    ⟨by decide, by decide⟩

/-! ## C2: characterization of the group-constraint block -/

theorem any_congr_mem {α : Type} : ∀ (l : List α) (p q : α → Bool),
    (∀ x ∈ l, p x = q x) → l.any p = l.any q := by
  intro l
  induction l with
  | nil => intro p q h; rfl
  | cons x xs ih =>
    intro p q h
    simp only [List.any_cons]
    rw [h x (by simp), ih p q (fun y hy => h y (by simp [hy]))]

theorem findSingle_names : ∀ (l : List OptionRec),
    ((l.map (fun o => o.name)).Nodup) →
    ((l.map (fun o => o.name)).any fun o =>
      (((l.find? (fun o2 => o2.name == o)).map (fun o2 => o2.single)).getD false)) =
    l.any (fun o => o.single) := by
  intro l
  induction l with
  | nil => intro h; rfl
  | cons r rest ih =>
    intro h
    simp only [List.map_cons, List.nodup_cons] at h ⊢
    obtain ⟨hnm, hnd⟩ := h
    simp only [List.any_cons]
    have hhead : ((((r :: rest).find? (fun o2 => o2.name == r.name)).map
        (fun o2 => o2.single)).getD false) = r.single := by
      rw [List.find?]
      simp
    have htail : ((rest.map (fun o => o.name)).any fun o =>
        ((((r :: rest).find? (fun o2 => o2.name == o)).map
          (fun o2 => o2.single)).getD false)) =
        ((rest.map (fun o => o.name)).any fun o =>
          (((rest.find? (fun o2 => o2.name == o)).map
            (fun o2 => o2.single)).getD false)) := by
      refine any_congr_mem _ _ _ ?_
      intro o ho
      have hne : r.name ≠ o := fun he => hnm (he ▸ ho)
      rw [List.find?]
      simp only [beq_eq_false_iff_ne.mpr hne]
    rw [List.find?]
    simp only [beq_self_eq_true]
    rw [show (some r).map (fun o2 => o2.single) = some r.single from rfl]
    simp only [Option.getD_some]
    rw [htail, ih hnd]

theorem combos2_mem_iff {α : Type} : ∀ (l : List α) (a b : α),
    (a, b) ∈ combos2 l ↔ ∃ i i' : Nat, i < i' ∧ l[i]? = some a ∧ l[i']? = some b := by
  intro l
  induction l with
  | nil =>
    intro a b
    simp [combos2]
  | cons x xs ih =>
    intro a b
    simp only [combos2, List.mem_append, List.mem_map]
    constructor
    · rintro (⟨y, hy, he⟩ | h)
      · injection he with he1 he2
        subst he1
        subst he2
        obtain ⟨i, hi⟩ := List.mem_iff_getElem?.mp hy
        exact ⟨0, i + 1, Nat.succ_pos i, by simp, by simpa using hi⟩
      · obtain ⟨i, i', hlt, h1, h2⟩ := (ih a b).mp h
        exact ⟨i + 1, i' + 1, by omega, by simpa using h1, by simpa using h2⟩
    · rintro ⟨i, i', hlt, h1, h2⟩
      cases i' with
      | zero => exact absurd hlt (by omega)
      | succ i2 =>
        cases i with
        | zero =>
          simp only [List.getElem?_cons_zero] at h1
          injection h1 with h1
          simp only [List.getElem?_cons_succ] at h2
          exact Or.inl ⟨b, List.mem_iff_getElem?.mpr ⟨i2, h2⟩, by rw [h1]⟩
        | succ i1 =>
          simp only [List.getElem?_cons_succ] at h1 h2
          exact Or.inr ((ih a b).mpr ⟨i1, i2, by omega, h1, h2⟩)

/-- The registry part of the state (next_var and the label table). -/
def SameReg (s s' : St) : Prop := s'.nextVar = s.nextVar ∧ s'.table = s.table

theorem sameReg_refl (s : St) : SameReg s s := ⟨rfl, rfl⟩

theorem sameReg_addClause (c : List Int) (s : St) : SameReg s (addClause c s) := ⟨rfl, rfl⟩

theorem sameReg_trans {a b c : St} (h1 : SameReg a b) (h2 : SameReg b c) : SameReg a c :=
  ⟨h2.1.trans h1.1, h2.2.trans h1.2⟩

theorem newVar_fst_congr {s s' : St} (h : SameReg s s') (l : String) :
    (newVar l s').1 = (newVar l s).1 := by
  unfold newVar
  rw [h.1, h.2]
  cases s.table.find? (fun p => p.1 == l) with
  | none => rfl
  | some p => rfl

theorem optVar_fst_congr {s s' : St} (h : SameReg s s') (o : String) (j : Nat) :
    (optVar o j s').1 = (optVar o j s).1 :=
  newVar_fst_congr h _

theorem lookupId_sameReg {s s' : St} (h : SameReg s s') (l : String) :
    lookupId s' l = lookupId s l := by
  unfold lookupId
  rw [h.2]

theorem optVar_cached {st : St} {o : String} {j : Nat} {v : Nat}
    (h : lookupId st (optLabel o j) = some v) : optVar o j st = (v, st) := by
  unfold optVar newVar
  unfold lookupId at h
  cases hf : st.table.find? (fun p => p.1 == optLabel o j) with
  | none => rw [hf] at h; simp at h
  | some p =>
    rw [hf] at h
    simp only [Option.map] at h
    injection h with h'
    exact congrArg (fun x => (x, st)) h'

theorem amo_fold_eq : ∀ (ps : List (Nat × Nat)) (s : St),
    SameReg s (ps.foldl emitAmoStep s) ∧
    (ps.foldl emitAmoStep s).clauses =
      s.clauses ++ ps.map (fun pr => [-(pr.1 : Int), -(pr.2 : Int), 0]) := by
  intro ps
  induction ps with
  | nil => intro s; exact ⟨sameReg_refl s, by simp⟩
  | cons p ps ih =>
    intro s
    rw [List.foldl_cons]
    obtain ⟨hr, hc⟩ := ih (emitAmoStep s p)
    refine ⟨sameReg_trans (sameReg_addClause _ s) hr, ?_⟩
    rw [hc]
    simp [emitAmoStep, addClause]

theorem bans_fold_eq (j : Nat) : ∀ (os : List OptionRec) (s : St),
    (∀ o ∈ os, ∃ v, lookupId s (optLabel o.name j) = some v) →
    SameReg s (os.foldl (emitBanStep j) s) ∧
    (os.foldl (emitBanStep j) s).clauses =
      s.clauses ++ (os.filter (fun o => o.error)).map
        (fun o => [-(((optVar o.name j s).1 : Int)), 0]) := by
  intro os
  induction os with
  | nil => intro s h; exact ⟨sameReg_refl s, by simp⟩
  | cons o os ih =>
    intro s h
    rw [List.foldl_cons]
    by_cases he : o.error
    · obtain ⟨v, hv⟩ := h o (by simp)
      have hcache : optVar o.name j s = (v, s) := optVar_cached hv
      have hstep : emitBanStep j s o = addClause [-(v : Int), 0] s := by
        unfold emitBanStep
        rw [if_pos he, hcache]
      rw [hstep]
      obtain ⟨hr, hc⟩ := ih (addClause [-(v : Int), 0] s)
        (fun o' ho' => by
          obtain ⟨v', hv'⟩ := h o' (by simp [ho'])
          exact ⟨v', by rw [lookupId_sameReg (sameReg_addClause _ s)]; exact hv'⟩)
      refine ⟨sameReg_trans (sameReg_addClause _ s) hr, ?_⟩
      rw [hc]
      have hmap : (os.filter (fun o => o.error)).map
          (fun o' => [-(((optVar o'.name j (addClause [-(v : Int), 0] s)).1 : Int)), 0]) =
          (os.filter (fun o => o.error)).map
          (fun o' => [-(((optVar o'.name j s).1 : Int)), 0]) := by
        refine List.map_congr_left ?_
        intro o' _
        rw [show (optVar o'.name j (addClause [-(v : Int), 0] s)).1 =
          (optVar o'.name j s).1 from newVar_fst_congr (sameReg_addClause _ s) _]
      rw [hmap]
      have hfv : (optVar o.name j s).1 = v := by rw [hcache]
      simp [addClause, List.filter_cons, he, hfv]
    · have hstep : emitBanStep j s o = s := by
        unfold emitBanStep
        rw [if_neg he]
      rw [hstep]
      obtain ⟨hr, hc⟩ := ih s (fun o' ho' => h o' (by simp [ho']))
      refine ⟨hr, ?_⟩
      rw [hc]
      simp [List.filter_cons, he]

theorem allocVars_lookup (j : Nat) : ∀ (opts : List String) (st : St) (o : String),
    o ∈ opts → ∃ v, lookupId (allocVars opts j st).2 (optLabel o j) = some v := by
  intro opts
  induction opts with
  | nil => intro st o h; simp at h
  | cons o0 rest ih =>
    intro st o h
    rcases List.mem_cons.mp h with rfl | h
    · refine ⟨(optVar o j st).1, ?_⟩
      have h1 := newVar_lookup (optLabel o j) st
      exact lookupId_step (allocVars_step rest j (optVar o j st).2) h1
    · exact ih (optVar o0 j st).2 o h

/-- C2: for every slot j and every group, (i) the group-constraints pass
processes each slot of [1..K] and each group through emitGroup; (ii) under
the auto policy the resolved policy is exactly-one iff some option of the
group carries single: true; (iii) the clause block emitted by emitGroup is
exactly the at-least-one clause (present iff the resolved policy is
exactly-one), followed by one at-most-one clause per unordered pair of
option variables, followed by one unit ban per error-flagged option; and
(iv) the pairs enumerated for at-most-one are exactly the unordered pairs
of the group's option variables. -/
theorem c2_group_constraints (ir : IR) (gp : String) (j : Nat) (gname : String)
    (opts : List String) (st : St)
    (hopts : opts = (groupData ir gname).options.map (fun o => o.name))
    (hnd : opts.Nodup) :
    (∀ (idx : Index) (k : Int) (s : St),
      emitGroupConstraints ir gp idx k s =
        (slots k).foldl (fun s' j' => idx.groups.foldl (emitGroupStep ir gp j') s') s) ∧
    (gp = "auto" →
      (resolvePolicy ir gp gname opts = "exactly-one" ↔
        ∃ o ∈ (groupData ir gname).options, o.single = true)) ∧
    ((emitGroup ir gp j gname opts st).clauses =
      (allocVars opts j st).2.clauses ++
      (if resolvePolicy ir gp gname opts == "exactly-one" then
        [(allocVars opts j st).1.map Int.ofNat ++ [0]] else []) ++
      (combos2 (allocVars opts j st).1).map
        (fun pr => [-(pr.1 : Int), -(pr.2 : Int), 0]) ++
      ((groupData ir gname).options.filter (fun o => o.error)).map
        (fun o => [-(((optVar o.name j (allocVars opts j st).2).1 : Int)), 0])) ∧
    (∀ a b : Nat, (a, b) ∈ combos2 (allocVars opts j st).1 ↔
      ∃ i i' : Nat, i < i' ∧ (allocVars opts j st).1[i]? = some a ∧
        (allocVars opts j st).1[i']? = some b) := by
  refine ⟨fun idx k s => rfl, ?_, ?_, fun a b => combos2_mem_iff _ a b⟩
  · intro hgp
    subst hgp
    subst hopts
    unfold resolvePolicy
    rw [if_pos (by rfl)]
    have hany : anySingle ir gname ((groupData ir gname).options.map (fun o => o.name)) =
        (groupData ir gname).options.any (fun o => o.single) := by
      unfold anySingle
      exact findSingle_names _ hnd
    rw [hany]
    by_cases h : (groupData ir gname).options.any (fun o => o.single)
    · rw [if_pos h]
      simp only [List.any_eq_true] at h
      exact ⟨fun _ => h, fun _ => rfl⟩
    · rw [if_neg h]
      constructor
      · intro he
        exact absurd he (by decide)
      · intro hex
        exact absurd (List.any_eq_true.mpr hex) h
  · have hget : ∀ o ∈ (groupData ir gname).options,
        ∃ v, lookupId (allocVars opts j st).2 (optLabel o.name j) = some v := by
      intro o ho
      exact allocVars_lookup j opts st o.name (by rw [hopts]; exact List.mem_map_of_mem _ ho)
    have hEG : emitGroup ir gp j gname opts st =
        (groupData ir gname).options.foldl (emitBanStep j)
          ((combos2 (allocVars opts j st).1).foldl emitAmoStep
            (if resolvePolicy ir gp gname opts == "exactly-one" then
              addClause ((allocVars opts j st).1.map Int.ofNat ++ [0]) (allocVars opts j st).2
            else (allocVars opts j st).2)) := rfl
    rw [hEG]
    have hreg1 : SameReg (allocVars opts j st).2
        (if resolvePolicy ir gp gname opts == "exactly-one" then
          addClause ((allocVars opts j st).1.map Int.ofNat ++ [0]) (allocVars opts j st).2
        else (allocVars opts j st).2) ∧
        (if resolvePolicy ir gp gname opts == "exactly-one" then
          addClause ((allocVars opts j st).1.map Int.ofNat ++ [0]) (allocVars opts j st).2
        else (allocVars opts j st).2).clauses =
        (allocVars opts j st).2.clauses ++
          (if resolvePolicy ir gp gname opts == "exactly-one" then
            [(allocVars opts j st).1.map Int.ofNat ++ [0]] else []) := by
      split
      · exact ⟨sameReg_addClause _ _, by simp [addClause]⟩
      · exact ⟨sameReg_refl _, by simp⟩
    obtain ⟨hr2, hc2⟩ := amo_fold_eq (combos2 (allocVars opts j st).1)
      (if resolvePolicy ir gp gname opts == "exactly-one" then
        addClause ((allocVars opts j st).1.map Int.ofNat ++ [0]) (allocVars opts j st).2
      else (allocVars opts j st).2)
    have hregs2 : SameReg (allocVars opts j st).2
        ((combos2 (allocVars opts j st).1).foldl emitAmoStep
          (if resolvePolicy ir gp gname opts == "exactly-one" then
            addClause ((allocVars opts j st).1.map Int.ofNat ++ [0]) (allocVars opts j st).2
          else (allocVars opts j st).2)) :=
      sameReg_trans hreg1.1 hr2
    obtain ⟨hr3, hc3⟩ := bans_fold_eq j (groupData ir gname).options
      ((combos2 (allocVars opts j st).1).foldl emitAmoStep
        (if resolvePolicy ir gp gname opts == "exactly-one" then
          addClause ((allocVars opts j st).1.map Int.ofNat ++ [0]) (allocVars opts j st).2
        else (allocVars opts j st).2))
      (fun o ho => by
        obtain ⟨v, hv⟩ := hget o ho
        exact ⟨v, by rw [lookupId_sameReg hregs2]; exact hv⟩)
    rw [hc3, hc2, hreg1.2]
    have hmap : ((groupData ir gname).options.filter (fun o => o.error)).map
        (fun o => [-(((optVar o.name j
          ((combos2 (allocVars opts j st).1).foldl emitAmoStep
            (if resolvePolicy ir gp gname opts == "exactly-one" then
              addClause ((allocVars opts j st).1.map Int.ofNat ++ [0]) (allocVars opts j st).2
            else (allocVars opts j st).2))).1 : Int)), 0]) =
        ((groupData ir gname).options.filter (fun o => o.error)).map
        (fun o => [-(((optVar o.name j (allocVars opts j st).2).1 : Int)), 0]) := by
      refine List.map_congr_left ?_
      intro o _
      rw [optVar_fst_congr hregs2]
    rw [hmap]

/-- An auto group with a single-flagged option and an error-flagged option. -/
def exC2 : IR :=
  { parameters := [("A", { options :=
      [{ name := "a1", single := true }, { name := "a2", error := true }] })] }

/-- C2 witness: policy resolution for the concrete auto group of exC2. -/
theorem c2_group_constraints_witness :
    resolvePolicy exC2 "auto" "A" ["a1", "a2"] = "exactly-one" ↔
      ∃ o ∈ (groupData exC2 "A").options, o.single = true :=
  (c2_group_constraints exC2 "auto" 1 "A" ["a1", "a2"] initSt (by rfl) (by decide)).2.1 rfl

/-- C4: the Tseitin pass over an RPN stream emits, for a negation with
operand a and fresh z, exactly the clauses [z, a] and [-z, -a]; for a
conjunction with operands a, b (b popped first) and fresh z exactly
[-z, a], [-z, b], [z, -a, -b]; for a disjunction exactly [z, -a], [z, -b],
[-z, a, b]; an exhausted stream returns the single stack entry unchanged;
and it fails with the invalid-expression error exactly when the final
operand stack size differs from 1. -/
theorem c4_tseitin_steps :
    (∀ (nv : St → Except Err (Nat × St)) (ga : String → St → Except Err (Nat × St))
      (ts : List String) (a : Int) (stk : List Int) (cls : List (List Int))
      (st : St) (z : Nat) (st' : St), nv st = .ok (z, st') →
      rpnToTseitin nv ga ("!" :: ts) (a :: stk) cls st =
        rpnToTseitin nv ga ts ((z : Int) :: stk)
          (cls ++ [[(z : Int), a], [-(z : Int), -a]]) st') ∧
    (∀ (nv : St → Except Err (Nat × St)) (ga : String → St → Except Err (Nat × St))
      (ts : List String) (a b : Int) (stk : List Int) (cls : List (List Int))
      (st : St) (z : Nat) (st' : St), nv st = .ok (z, st') →
      rpnToTseitin nv ga ("&&" :: ts) (b :: a :: stk) cls st =
        rpnToTseitin nv ga ts ((z : Int) :: stk)
          (cls ++ [[-(z : Int), a], [-(z : Int), b], [(z : Int), -a, -b]]) st') ∧
    (∀ (nv : St → Except Err (Nat × St)) (ga : String → St → Except Err (Nat × St))
      (ts : List String) (a b : Int) (stk : List Int) (cls : List (List Int))
      (st : St) (z : Nat) (st' : St), nv st = .ok (z, st') →
      rpnToTseitin nv ga ("||" :: ts) (b :: a :: stk) cls st =
        rpnToTseitin nv ga ts ((z : Int) :: stk)
          (cls ++ [[(z : Int), -a], [(z : Int), -b], [-(z : Int), a, b]]) st') ∧
    (∀ (nv : St → Except Err (Nat × St)) (ga : String → St → Except Err (Nat × St))
      (x : Int) (cls : List (List Int)) (st : St),
      rpnToTseitin nv ga [] [x] cls st = .ok (x, cls, st)) ∧
    (∀ (nv : St → Except Err (Nat × St)) (ga : String → St → Except Err (Nat × St))
      (stk : List Int) (cls : List (List Int)) (st : St),
      rpnToTseitin nv ga [] stk cls st = .error .invalidExpr ↔ stk.length ≠ 1) := by
  refine ⟨?_, ?_, ?_, fun nv ga x cls st => rfl, ?_⟩
  · intro nv ga ts a stk cls st z st' hnv
    have hstep : rpnToTseitin nv ga ("!" :: ts) (a :: stk) cls st =
        (nv st >>= fun r => rpnToTseitin nv ga ts ((r.1 : Int) :: stk)
          (cls ++ [[(r.1 : Int), a], [-(r.1 : Int), -a]]) r.2) := rfl
    rw [hstep, hnv]
    rfl
  · intro nv ga ts a b stk cls st z st' hnv
    have hstep : rpnToTseitin nv ga ("&&" :: ts) (b :: a :: stk) cls st =
        (nv st >>= fun r => rpnToTseitin nv ga ts ((r.1 : Int) :: stk)
          (cls ++ [[-(r.1 : Int), a], [-(r.1 : Int), b], [(r.1 : Int), -a, -b]]) r.2) := rfl
    rw [hstep, hnv]
    rfl
  · intro nv ga ts a b stk cls st z st' hnv
    have hstep : rpnToTseitin nv ga ("||" :: ts) (b :: a :: stk) cls st =
        (nv st >>= fun r => rpnToTseitin nv ga ts ((r.1 : Int) :: stk)
          (cls ++ [[(r.1 : Int), -a], [(r.1 : Int), -b], [-(r.1 : Int), a, b]]) r.2) := rfl
    rw [hstep, hnv]
    rfl
  · intro nv ga stk cls st
    match stk with
    | [] => simp [rpnToTseitin]
    | [x] => simp [rpnToTseitin]
    | x :: y :: r => simp [rpnToTseitin]

/-- C4 witness: one concrete negation step and one concrete failing final
stack, via c4_tseitin_steps at explicit inputs. -/
theorem c4_tseitin_steps_witness :
    rpnToTseitin (fun s => .ok (7, s)) (fun _ s => .ok (1, s)) ["!"] [5] [] initSt =
      rpnToTseitin (fun s => .ok (7, s)) (fun _ s => .ok (1, s)) []
        [((7 : Nat) : Int)] [[((7 : Nat) : Int), 5], [-((7 : Nat) : Int), -5]] initSt ∧
    (rpnToTseitin (fun s => .ok (7, s)) (fun _ s => .ok (1, s)) [] [5, 6] [] initSt =
      .error .invalidExpr ↔ ([(5 : Int), 6].length ≠ 1)) :=
  ⟨c4_tseitin_steps.1 (fun s => .ok (7, s)) (fun _ s => .ok (1, s)) [] 5 [] [] initSt 7
      initSt rfl,
   c4_tseitin_steps.2.2.2.2 (fun s => .ok (7, s)) (fun _ s => .ok (1, s)) [5, 6] [] initSt⟩

/-! ## C3: the property-link clause families and their semantics -/

theorem clause_mem_step {s s' : St} (h : StStep s s') {c : List Int}
    (hc : c ∈ s.clauses) : c ∈ s'.clauses := by
  obtain ⟨-, -, ⟨cs, hcs⟩, -⟩ := h
  rw [hcs]
  exact List.mem_append_left _ hc

theorem forall2_mem_right {α β : Type} {R : α → β → Prop} :
    ∀ {l1 : List α} {l2 : List β}, List.Forall₂ R l1 l2 →
      ∀ b ∈ l2, ∃ a ∈ l1, R a b := by
  intro l1 l2 h
  induction h with
  | nil => intro b hb; simp at hb
  | cons hr _ ih =>
    intro b hb
    rcases List.mem_cons.mp hb with rfl | hb
    · exact ⟨_, by simp, hr⟩
    · obtain ⟨a, ha, hab⟩ := ih b hb
      exact ⟨a, by simp [ha], hab⟩

theorem foldl_estab {α : Type} {f : St → α → St}
    (hstep : ∀ st a, StStep st (f st a))
    {P : α → St → Prop}
    (hmono : ∀ a s s', StStep s s' → P a s → P a s')
    (hP : ∀ st a, P a (f st a)) :
    ∀ (l : List α) (st : St) (a : α), a ∈ l → P a (l.foldl f st) := by
  intro l
  induction l with
  | nil => intro st a h; simp at h
  | cons b bs ih =>
    intro st a h
    rw [List.foldl_cons]
    rcases List.mem_cons.mp h with rfl | h
    · exact hmono a _ _ (foldl_step hstep bs (f st a)) (hP st a)
    · exact ih (f st b) a h

theorem linkFold_mem (p j : Nat) : ∀ (os : List String) (s : St),
    ∀ o ∈ os, ∃ v, lookupId (os.foldl (linkClauseStep p j) s) (optLabel o j) = some v ∧
      [-(v : Int), (p : Int), 0] ∈ (os.foldl (linkClauseStep p j) s).clauses := by
  intro os
  induction os with
  | nil => intro s o h; simp at h
  | cons o0 rest ih =>
    intro s o h
    rw [List.foldl_cons]
    rcases List.mem_cons.mp h with rfl | h
    · refine ⟨(optVar o j s).1, ?_, ?_⟩
      · refine lookupId_step (foldl_step (linkClauseStep_step p j) rest _) ?_
        exact lookupId_step (addClause_step _ _) (newVar_lookup _ s)
      · refine clause_mem_step (foldl_step (linkClauseStep_step p j) rest _) ?_
        exact List.mem_append_right _ (by simp)
    · exact ih (linkClauseStep p j s o0) o h

theorem allocVars_forall2 (j : Nat) : ∀ (os : List String) (st : St),
    List.Forall₂ (fun o v => lookupId (allocVars os j st).2 (optLabel o j) = some v)
      os (allocVars os j st).1 := by
  intro os
  induction os with
  | nil => intro st; exact List.Forall₂.nil
  | cons o rest ih =>
    intro st
    refine List.Forall₂.cons ?_ ?_
    · exact lookupId_step (allocVars_step rest j (optVar o j st).2) (newVar_lookup _ st)
    · exact ih (optVar o j st).2

/-- The clause family emitted for one asserted property in one slot. -/
def PropFamily (j : Nat) (pr : String × List String) (s : St) : Prop :=
  ∃ p, lookupId s (propLabel pr.1 j) = some p ∧
    (∀ o ∈ pr.2, ∃ v, lookupId s (optLabel o j) = some v ∧
      [-(v : Int), (p : Int), 0] ∈ s.clauses) ∧
    (∃ vs : List Nat,
      List.Forall₂ (fun o v => lookupId s (optLabel o j) = some v) pr.2 vs ∧
      ([-(p : Int)] ++ vs.map Int.ofNat ++ [0]) ∈ s.clauses)

theorem propFamily_mono (j : Nat) (pr : String × List String) {s s' : St}
    (h : StStep s s') (hf : PropFamily j pr s) : PropFamily j pr s' := by
  obtain ⟨p, hp, h1, vs, h2, h3⟩ := hf
  refine ⟨p, lookupId_step h hp, ?_, vs, ?_, clause_mem_step h h3⟩
  · intro o ho
    obtain ⟨v, hv, hc⟩ := h1 o ho
    exact ⟨v, lookupId_step h hv, clause_mem_step h hc⟩
  · exact h2.imp (fun o v hv => lookupId_step h hv)

theorem emitLinkProp_family (j : Nat) (st : St) (pr : String × List String) :
    PropFamily j pr (emitLinkProp j st pr) := by
  have hEG : emitLinkProp j st pr =
      addClause ([-(((propVar pr.1 j st).1 : Int))] ++
        (allocVars pr.2 j (pr.2.foldl (linkClauseStep (propVar pr.1 j st).1 j)
          (propVar pr.1 j st).2)).1.map Int.ofNat ++ [0])
        (allocVars pr.2 j (pr.2.foldl (linkClauseStep (propVar pr.1 j st).1 j)
          (propVar pr.1 j st).2)).2 := rfl
  rw [hEG]
  refine ⟨(propVar pr.1 j st).1, ?_, ?_, ?_⟩
  · refine lookupId_step (addClause_step _ _) ?_
    refine lookupId_step (allocVars_step pr.2 j _) ?_
    refine lookupId_step (foldl_step (linkClauseStep_step (propVar pr.1 j st).1 j) pr.2 _) ?_
    exact newVar_lookup _ st
  · intro o ho
    obtain ⟨v, hv, hc⟩ := linkFold_mem (propVar pr.1 j st).1 j pr.2 (propVar pr.1 j st).2 o ho
    refine ⟨v, ?_, ?_⟩
    · exact lookupId_step (addClause_step _ _) (lookupId_step (allocVars_step pr.2 j _) hv)
    · exact clause_mem_step (addClause_step _ _) (clause_mem_step (allocVars_step pr.2 j _) hc)
  · refine ⟨(allocVars pr.2 j (pr.2.foldl (linkClauseStep (propVar pr.1 j st).1 j)
      (propVar pr.1 j st).2)).1, ?_, ?_⟩
    · exact (allocVars_forall2 j pr.2 _).imp (fun o v hv => lookupId_step (addClause_step _ _) hv)
    · exact List.mem_append_right _ (by simp)

theorem emitPropertyLinks_family (idx : Index) (ants : List (String × String)) (k : Int)
    (st : St) : ∀ j ∈ slots k, ∀ pr ∈ idx.propertyToOptions,
      PropFamily j pr (emitPropertyLinks idx ants k st) := by
  intro j hj pr hpr
  unfold emitPropertyLinks
  refine foldl_estab (f := fun s j' => emitPropsSlot idx ants j' s)
    (fun s j' => emitPropsSlot_step idx ants j' s)
    (P := fun j' s => ∀ pr' ∈ idx.propertyToOptions, PropFamily j' pr' s)
    (fun j' s s' hs hP pr' hpr' => propFamily_mono j' pr' hs (hP pr' hpr'))
    (fun s j' pr' hpr' => ?_) (slots k) st j hj pr hpr
  unfold emitPropsSlot
  refine propFamily_mono j' pr' (emitAntonymsSlot_step ants j' _) ?_
  unfold emitLinksSlot
  exact foldl_estab (f := emitLinkProp j') (emitLinkProp_step j')
    (P := fun pr'' s' => PropFamily j' pr'' s')
    (fun pr'' s s' hs hP => propFamily_mono j' pr'' hs hP)
    (fun s'' pr'' => emitLinkProp_family j' s'' pr'')
    idx.propertyToOptions s pr' hpr'

theorem clauseSat_iff (A : Nat → Bool) (c : List Int) :
    clauseSat A c = true ↔ ∃ l ∈ c, litSat A l = true := by
  simp [clauseSat, List.any_eq_true]

theorem cnfSat_mem {A : Nat → Bool} {cs : List (List Int)} (h : cnfSat A cs = true)
    {c : List Int} (hc : c ∈ cs) : clauseSat A c = true := by
  simp only [cnfSat, List.all_eq_true] at h
  exact h c hc

theorem litSat_coe_iff (A : Nat → Bool) (v : Nat) :
    (litSat A (v : Int) = true ↔ 0 < v ∧ A v = true) := by
  unfold litSat
  by_cases h : 0 < v
  · rw [if_pos (by exact_mod_cast h)]
    simp [h]
  · have hv : v = 0 := by omega
    subst hv
    simp

theorem litSat_negCoe_iff (A : Nat → Bool) (v : Nat) :
    (litSat A (-(v : Int)) = true ↔ 0 < v ∧ A v = false) := by
  unfold litSat
  by_cases h : 0 < v
  · rw [if_neg (by omega), if_pos (by exact_mod_cast Int.neg_neg_of_pos (by exact_mod_cast h))]
    simp [h, Bool.not_eq_true']
  · have hv : v = 0 := by omega
    subst hv
    simp

theorem litSat_zero (A : Nat → Bool) : litSat A 0 = false := rfl

/-- C3: in any successful encoding, for every property that is asserted by
at least one option, every slot, and every assignment satisfying the
emitted clauses, the property-slot variable is true iff some asserting
option's variable for that slot is true (the encoder emits one clause
[-v, p, 0] per asserter and the single clause [-p, v1, ..., vm, 0]). -/
theorem c3_property_biimplication (ir : IR) (cfg : Config) (st : St)
    (hrun : encodeSt ir cfg = .ok st)
    (pi : String) (os : List String) (hpi : (pi, os) ∈ (collectIr ir).propertyToOptions)
    (j : Nat) (hj : j ∈ slots cfg.k)
    (p : Nat) (hp : lookupId st (propLabel pi j) = some p)
    (A : Nat → Bool) (hA : cnfSat A st.clauses = true) :
    (A p = true ↔ ∃ o ∈ os, ∃ v, lookupId st (optLabel o j) = some v ∧ A v = true) := by
  obtain ⟨hgood, hstep⟩ := encodeSt_good ir cfg hrun
  have hfam0 : PropFamily j (pi, os) (stageProps ir cfg) :=
    emitPropertyLinks_family (collectIr ir) cfg.antonyms cfg.k (stageGroups ir cfg)
      j hj (pi, os) hpi
  have hfam := propFamily_mono j (pi, os) hstep hfam0
  obtain ⟨p', hp', hlinks, vs, hvs, hbig⟩ := hfam
  have hpp : p' = p := by
    rw [hp'] at hp
    injection hp
  subst hpp
  constructor
  · intro hap
    have hcs := cnfSat_mem hA hbig
    obtain ⟨l, hl, hsat⟩ := (clauseSat_iff A _).mp hcs
    rcases List.mem_append.mp hl with hl | hl
    · rcases List.mem_append.mp hl with hl | hl
      · simp at hl
        subst hl
        rw [litSat_negCoe_iff] at hsat
        rw [hap] at hsat
        exact absurd hsat.2 (by simp)
      · obtain ⟨v, hv, rfl⟩ := List.mem_map.mp hl
        rw [intOfNat_eq, litSat_coe_iff] at hsat
        obtain ⟨o, ho, hov⟩ := forall2_mem_right hvs v hv
        exact ⟨o, ho, v, hov, hsat.2⟩
    · simp at hl
      subst hl
      rw [litSat_zero] at hsat
      exact absurd hsat (by simp)
  · rintro ⟨o, ho, v, hv, hav⟩
    obtain ⟨v', hv', hcl⟩ := hlinks o ho
    have hvv : v' = v := by
      rw [hv'] at hv
      injection hv
    subst hvv
    have hcs := cnfSat_mem hA hcl
    obtain ⟨l, hl, hsat⟩ := (clauseSat_iff A _).mp hcs
    rcases List.mem_cons.mp hl with rfl | hl
    · rw [litSat_negCoe_iff] at hsat
      rw [hav] at hsat
      exact absurd hsat.2 (by simp)
    · rcases List.mem_cons.mp hl with rfl | hl
      · rw [litSat_coe_iff] at hsat
        exact hsat.2
      · simp at hl
        subst hl
        rw [litSat_zero] at hsat
        exact absurd hsat (by simp)

/-- One group whose option a1 asserts property P. -/
def exC3 : IR :=
  { parameters := [("A", { options := [{ name := "a1", property := some "P" }] })] }

def stC3 : St :=
  { nextVar := 5,
    table := [("v:a1@1", 1), ("p:P@1", 2), ("c:a1", 3), ("a#4", 4)],
    clauses := [[-1, 2, 0], [-2, 1, 0], [-4, 1, 0], [-1, 4, 0], [4, 3, 0], [-3, 4, 0], [3, 0]],
    covMap := [(["a1"], 3)] }

def aC3 : Nat → Bool := fun n => n ≤ 4

/-- C3 witness: the bi-implication at the concrete encoding of exC3 with a
concrete satisfying assignment. -/
theorem c3_property_biimplication_witness :
    aC3 2 = true ↔ ∃ o ∈ ["a1"], ∃ v, lookupId stC3 (optLabel o 1) = some v ∧ aC3 v = true :=
  c3_property_biimplication exC3 { t := 1, k := 1 } stC3 (by rfl) "P" ["a1"]
    (by decide) 1 (by decide) 2 (by decide) aC3 (by decide)

/-! ## C9 amended: coverage blocks follow the insertion order of the key map -/

theorem covKeyStep_block (fc : Bool) (k : Int) (s : St) (pr : List String × Nat) :
    ∃ block, (covKeyStep fc k s pr).clauses = s.clauses ++ block ∧
      ∃ c ∈ block, -(pr.2 : Int) ∈ c := by
  obtain ⟨-, -, ⟨cs0, hcs0⟩, -⟩ := covSlotsFold_step pr.1 (slots k) s
  rw [covKeyStep_eq]
  split
  · refine ⟨cs0 ++ [(covSlotsFold pr.1 (slots k) s).1.map Int.ofNat ++ [(pr.2 : Int), 0],
      [-(pr.2 : Int)] ++ (covSlotsFold pr.1 (slots k) s).1.map Int.ofNat ++ [0],
      [(pr.2 : Int), 0]], ?_, ?_⟩
    · simp [addClause, hcs0]
    · exact ⟨[-(pr.2 : Int)] ++ (covSlotsFold pr.1 (slots k) s).1.map Int.ofNat ++ [0],
        by simp, by simp⟩
  · refine ⟨cs0 ++ [(covSlotsFold pr.1 (slots k) s).1.map Int.ofNat ++ [(pr.2 : Int), 0],
      [-(pr.2 : Int)] ++ (covSlotsFold pr.1 (slots k) s).1.map Int.ofNat ++ [0]], ?_, ?_⟩
    · simp [addClause, hcs0]
    · exact ⟨[-(pr.2 : Int)] ++ (covSlotsFold pr.1 (slots k) s).1.map Int.ofNat ++ [0],
        by simp, by simp⟩

theorem covFold_blocks (fc : Bool) (k : Int) : ∀ (ks : List (List String × Nat)) (s : St),
    ∃ blocks : List (List (List Int)),
      (ks.foldl (covKeyStep fc k) s).clauses = s.clauses ++ blocks.flatten ∧
      List.Forall₂ (fun (pr : List String × Nat) (b : List (List Int)) =>
        ∃ c ∈ b, -(pr.2 : Int) ∈ c) ks blocks := by
  intro ks
  induction ks with
  | nil => intro s; exact ⟨[], by simp, List.Forall₂.nil⟩
  | cons pr ks ih =>
    intro s
    obtain ⟨b0, hb0, hm0⟩ := covKeyStep_block fc k s pr
    obtain ⟨blocks, hbl, hf⟩ := ih (covKeyStep fc k s pr)
    refine ⟨b0 :: blocks, ?_, List.Forall₂.cons hm0 hf⟩
    rw [List.foldl_cons, hbl, hb0]
    simp

/-- C9 amended: _emit_coverage iterates the tuple-key map in its insertion
order, the order in which canonical keys were first enumerated (group
combinations in group insertion order, Cartesian products in option order):
the emitted clause sequence decomposes into one contiguous block per key,
and the blocks are aligned positionally (Forall2) with the entries of
t_tuple_to_cov, each block containing the clause with the negated coverage
variable of its own key. Lexicographic order plays no role. -/
theorem c9_blocks_insertion_order (fc : Bool) (k : Int) (st : St) :
    ∃ blocks : List (List (List Int)),
      (emitCoverage fc k st).clauses = st.clauses ++ blocks.flatten ∧
      List.Forall₂ (fun (pr : List String × Nat) (b : List (List Int)) =>
        ∃ c ∈ b, -(pr.2 : Int) ∈ c) st.covMap blocks :=
  covFold_blocks fc k st.covMap st

/-! ## C10: antonym-only property variables -/

/-- The labels of variables that can occur in group-constraint clauses. -/
def groupOptLabels (ir : IR) (idx : Index) (k : Int) : List String :=
  ((slots k).map (fun j =>
    ((idx.groups.map (fun g => g.2.map (fun o => optLabel o j))).flatten ++
     (idx.groups.map (fun g =>
        (groupData ir g.1).options.map (fun o => optLabel o.name j))).flatten))).flatten

/-- The labels of variables that can occur in property bi-implication
(link) clauses. -/
def linkLabels (idx : Index) (k : Int) : List String :=
  ((slots k).map (fun j =>
    (idx.propertyToOptions.map
      (fun pr => propLabel pr.1 j :: pr.2.map (fun o => optLabel o j))).flatten)).flatten

def biLabels (ir : IR) (k : Int) : List String :=
  groupOptLabels ir (collectIr ir) k ++ linkLabels (collectIr ir) k

theorem mem_groupOptLabels1 (ir : IR) (idx : Index) (k : Int) {j : Nat}
    {g : String × List String} {o : String} (hj : j ∈ slots k) (hg : g ∈ idx.groups)
    (ho : o ∈ g.2) : optLabel o j ∈ groupOptLabels ir idx k := by
  unfold groupOptLabels
  rw [List.mem_flatten]
  refine ⟨_, List.mem_map_of_mem _ hj, ?_⟩
  refine List.mem_append_left _ ?_
  rw [List.mem_flatten]
  exact ⟨_, List.mem_map_of_mem _ hg, List.mem_map_of_mem _ ho⟩

theorem mem_groupOptLabels2 (ir : IR) (idx : Index) (k : Int) {j : Nat}
    {g : String × List String} {o : OptionRec} (hj : j ∈ slots k) (hg : g ∈ idx.groups)
    (ho : o ∈ (groupData ir g.1).options) :
    optLabel o.name j ∈ groupOptLabels ir idx k := by
  unfold groupOptLabels
  rw [List.mem_flatten]
  refine ⟨_, List.mem_map_of_mem _ hj, ?_⟩
  refine List.mem_append_right _ ?_
  rw [List.mem_flatten]
  exact ⟨_, List.mem_map_of_mem _ hg, List.mem_map_of_mem _ ho⟩

theorem mem_linkLabels_prop (idx : Index) (k : Int) {j : Nat}
    {pr : String × List String} (hj : j ∈ slots k) (hpr : pr ∈ idx.propertyToOptions) :
    propLabel pr.1 j ∈ linkLabels idx k := by
  unfold linkLabels
  rw [List.mem_flatten]
  refine ⟨_, List.mem_map_of_mem _ hj, ?_⟩
  rw [List.mem_flatten]
  exact ⟨_, List.mem_map_of_mem _ hpr, by simp⟩

theorem mem_linkLabels_opt (idx : Index) (k : Int) {j : Nat}
    {pr : String × List String} {o : String} (hj : j ∈ slots k)
    (hpr : pr ∈ idx.propertyToOptions) (ho : o ∈ pr.2) :
    optLabel o j ∈ linkLabels idx k := by
  unfold linkLabels
  rw [List.mem_flatten]
  refine ⟨_, List.mem_map_of_mem _ hj, ?_⟩
  rw [List.mem_flatten]
  exact ⟨_, List.mem_map_of_mem _ hpr,
    List.mem_cons_of_mem _ (List.mem_map_of_mem _ ho)⟩

/-- A literal drawn from a set of labels (or the stored 0 terminator). -/
def LitFrom (s : St) (L : List String) (x : Int) : Prop :=
  x = 0 ∨ ∃ l ∈ L, lookupId s l = some x.natAbs

def ClauseFrom (s : St) (L : List String) (c : List Int) : Prop :=
  ∀ x ∈ c, LitFrom s L x

/-- The shape of an antonym exclusivity clause (also of an at-most-one
clause): two negative literals and the terminator. -/
def AntPairShape (c : List Int) : Prop :=
  ∃ x y : Nat, c = [-(x : Int), -(y : Int), 0]

theorem litFrom_mono {s s' : St} (h : StStep s s') {L : List String} {x : Int}
    (hl : LitFrom s L x) : LitFrom s' L x := by
  rcases hl with rfl | ⟨l, hlm, hlv⟩
  · exact Or.inl rfl
  · exact Or.inr ⟨l, hlm, lookupId_step h hlv⟩

theorem clauseFrom_mono {s s' : St} (h : StStep s s') {L : List String} {c : List Int}
    (hc : ClauseFrom s L c) : ClauseFrom s' L c :=
  fun x hx => litFrom_mono h (hc x hx)

theorem clauseFrom_subset {s : St} {L L' : List String} (h : ∀ l ∈ L, l ∈ L')
    {c : List Int} (hc : ClauseFrom s L c) : ClauseFrom s L' c := by
  intro x hx
  rcases hc x hx with rfl | ⟨l, hlm, hlv⟩
  · exact Or.inl rfl
  · exact Or.inr ⟨l, h l hlm, hlv⟩

theorem nodup_map_inj {α β : Type} {f : α → β} :
    ∀ {l : List α}, (l.map f).Nodup → ∀ x ∈ l, ∀ y ∈ l, f x = f y → x = y := by
  intro l
  induction l with
  | nil => intro _ x hx; simp at hx
  | cons a as ih =>
    intro h x hx y hy he
    simp only [List.map_cons, List.nodup_cons] at h
    obtain ⟨hna, hnd⟩ := h
    rcases List.mem_cons.mp hx with hxa | hxs
    · rcases List.mem_cons.mp hy with hya | hys
      · rw [hxa, hya]
      · subst hxa
        exact absurd (by rw [he]; exact List.mem_map_of_mem f hys) hna
    · rcases List.mem_cons.mp hy with hya | hys
      · subst hya
        exact absurd (by rw [← he]; exact List.mem_map_of_mem f hxs) hna
      · exact ih hnd x hxs y hys he

theorem lookup_inj {st : St} (hg : GoodTable st) {l1 l2 : String} {v : Nat}
    (h1 : lookupId st l1 = some v) (h2 : lookupId st l2 = some v) : l1 = l2 := by
  obtain ⟨-, -, -, hids, -⟩ := hg
  unfold lookupId at h1 h2
  cases hf1 : st.table.find? (fun p => p.1 == l1) with
  | none => rw [hf1] at h1; simp at h1
  | some q1 =>
    rw [hf1] at h1
    cases hf2 : st.table.find? (fun p => p.1 == l2) with
    | none => rw [hf2] at h2; simp at h2
    | some q2 =>
      rw [hf2] at h2
      simp only [Option.map] at h1 h2
      injection h1 with h1
      injection h2 with h2
      have hm1 := List.mem_of_find?_eq_some hf1
      have hm2 := List.mem_of_find?_eq_some hf2
      have hb1 := List.find?_some hf1
      have hb2 := List.find?_some hf2
      have he1 : q1.1 = l1 := eq_of_beq hb1
      have he2 : q2.1 = l2 := eq_of_beq hb2
      have hq : q1 = q2 :=
        nodup_map_inj hids q1 hm1 q2 hm2 (show q1.2 = q2.2 by rw [h1, h2])
      rw [← he1, ← he2, hq]

theorem newVar_clauses (l : String) (st : St) : (newVar l st).2.clauses = st.clauses := by
  unfold newVar
  cases st.table.find? (fun p => p.1 == l) with
  | none => rfl
  | some p => rfl

theorem allocVars_clauses (j : Nat) : ∀ (opts : List String) (st : St),
    (allocVars opts j st).2.clauses = st.clauses := by
  intro opts
  induction opts with
  | nil => intro st; rfl
  | cons o rest ih =>
    intro st
    have h1 : (allocVars (o :: rest) j st).2 = (allocVars rest j (optVar o j st).2).2 := rfl
    rw [h1, ih]
    exact newVar_clauses (optLabel o j) st

/-- The clauses present for one antonym pair in one slot. -/
def AntFamily (j : Nat) (ab : String × String) (s : St) : Prop :=
  ∃ pa pb, lookupId s (propLabel ab.1 j) = some pa ∧
    lookupId s (propLabel ab.2 j) = some pb ∧
    [-(pa : Int), -(pb : Int), 0] ∈ s.clauses

theorem antFamily_mono (j : Nat) (ab : String × String) {s s' : St}
    (h : StStep s s') (hf : AntFamily j ab s) : AntFamily j ab s' := by
  obtain ⟨pa, pb, h1, h2, h3⟩ := hf
  exact ⟨pa, pb, lookupId_step h h1, lookupId_step h h2, clause_mem_step h h3⟩

theorem emitAntPair_family (j : Nat) (st : St) (ab : String × String) :
    AntFamily j ab (emitAntPair j st ab) := by
  have hEG : emitAntPair j st ab =
      addClause [-((propVar ab.1 j st).1 : Int),
        -((propVar ab.2 j (propVar ab.1 j st).2).1 : Int), 0]
        (propVar ab.2 j (propVar ab.1 j st).2).2 := rfl
  rw [hEG]
  refine ⟨(propVar ab.1 j st).1, (propVar ab.2 j (propVar ab.1 j st).2).1, ?_, ?_,
    by simp [addClause]⟩
  · refine lookupId_step (addClause_step _ _) ?_
    exact lookupId_step (propVar_step ab.2 j _) (newVar_lookup _ st)
  · exact lookupId_step (addClause_step _ _) (newVar_lookup _ _)

theorem emitPropertyLinks_antFamily (idx : Index) (ants : List (String × String))
    (k : Int) (st : St) : ∀ j ∈ slots k, ∀ ab ∈ antonymPairs ants,
      AntFamily j ab (emitPropertyLinks idx ants k st) := by
  intro j hj ab hab
  unfold emitPropertyLinks
  refine foldl_estab (f := fun s j' => emitPropsSlot idx ants j' s)
    (fun s j' => emitPropsSlot_step idx ants j' s)
    (P := fun j' s => ∀ ab' ∈ antonymPairs ants, AntFamily j' ab' s)
    (fun j' s s' hs hP ab' hab' => antFamily_mono j' ab' hs (hP ab' hab'))
    (fun s j' ab' hab' => ?_) (slots k) st j hj ab hab
  unfold emitPropsSlot emitAntonymsSlot
  exact foldl_estab (f := emitAntPair j') (emitAntPair_step j')
    (P := fun ab'' s' => AntFamily j' ab'' s')
    (fun ab'' s1 s2 hs hP => antFamily_mono j' ab'' hs hP)
    (fun s'' ab'' => emitAntPair_family j' s'' ab'')
    (antonymPairs ants) (emitLinksSlot idx j' s) ab' hab'

theorem foldl_added_inv {α : Type} (f : St → α → St) (Q : St → List Int → Prop)
    (I : St → Prop)
    (hstep : ∀ st a, StStep st (f st a))
    (hI : ∀ st a, I st → I (f st a))
    (hmono : ∀ s s' c, StStep s s' → Q s c → Q s' c) :
    ∀ (l : List α),
      (∀ st a, I st → a ∈ l → ∀ c ∈ (f st a).clauses, c ∈ st.clauses ∨ Q (f st a) c) →
      ∀ st, I st → ∀ c ∈ (l.foldl f st).clauses,
        c ∈ st.clauses ∨ Q (l.foldl f st) c := by
  intro l
  induction l with
  | nil => intro _ st _ c hc; exact Or.inl hc
  | cons a rest ih =>
    intro hadd st hst c hc
    rw [List.foldl_cons] at hc ⊢
    rcases ih (fun st' a' hI' ha' => hadd st' a' hI' (List.mem_cons_of_mem _ ha'))
        (f st a) (hI st a hst) c hc with h | h
    · rcases hadd st a hst (List.mem_cons_self a rest) c h with h2 | h2
      · exact Or.inl h2
      · exact Or.inr (hmono _ _ _ (foldl_step hstep rest (f st a)) h2)
    · exact Or.inr h

theorem natAbs_negCoe (v : Nat) : (-(v : Int)).natAbs = v := by simp

theorem emitAmoStep_from (L : List String) (s : St) (pr : Nat × Nat)
    (h1 : ∃ l ∈ L, lookupId s l = some pr.1)
    (h2 : ∃ l ∈ L, lookupId s l = some pr.2) :
    ∀ c ∈ (emitAmoStep s pr).clauses,
      c ∈ s.clauses ∨ ClauseFrom (emitAmoStep s pr) L c := by
  intro c hc
  have hcl : (emitAmoStep s pr).clauses =
      s.clauses ++ [[-(pr.1 : Int), -(pr.2 : Int), 0]] := rfl
  rw [hcl] at hc
  rcases List.mem_append.mp hc with h | h
  · exact Or.inl h
  · right
    have hce : c = [-(pr.1 : Int), -(pr.2 : Int), 0] := by simpa using h
    subst hce
    have hs : StStep s (emitAmoStep s pr) := emitAmoStep_step s pr
    intro x hx
    rcases List.mem_cons.mp hx with rfl | hx
    · obtain ⟨l, hl, hv⟩ := h1
      refine Or.inr ⟨l, hl, ?_⟩
      rw [natAbs_negCoe]
      exact lookupId_step hs hv
    rcases List.mem_cons.mp hx with rfl | hx
    · obtain ⟨l, hl, hv⟩ := h2
      refine Or.inr ⟨l, hl, ?_⟩
      rw [natAbs_negCoe]
      exact lookupId_step hs hv
    rcases List.mem_cons.mp hx with rfl | hx
    · exact Or.inl rfl
    · simp at hx

theorem emitBanStep_from (L : List String) (j : Nat) (s : St) (o : OptionRec)
    (hl : optLabel o.name j ∈ L) :
    ∀ c ∈ (emitBanStep j s o).clauses,
      c ∈ s.clauses ∨ ClauseFrom (emitBanStep j s o) L c := by
  intro c hc
  cases ho : o.error with
  | false =>
    have heq : emitBanStep j s o = s := by
      unfold emitBanStep
      rw [ho]
      rfl
    rw [heq] at hc
    exact Or.inl hc
  | true =>
    have heq : emitBanStep j s o =
        addClause [-((optVar o.name j s).1 : Int), 0] (optVar o.name j s).2 := by
      unfold emitBanStep
      rw [ho]
      rfl
    rw [heq] at hc ⊢
    have hcl : (addClause [-((optVar o.name j s).1 : Int), 0] (optVar o.name j s).2).clauses
        = (optVar o.name j s).2.clauses ++ [[-((optVar o.name j s).1 : Int), 0]] := rfl
    rw [hcl] at hc
    rcases List.mem_append.mp hc with h | h
    · left
      rw [show (optVar o.name j s).2.clauses = s.clauses from
        newVar_clauses (optLabel o.name j) s] at h
      exact h
    · right
      have hce : c = [-((optVar o.name j s).1 : Int), 0] := by simpa using h
      subst hce
      intro x hx
      rcases List.mem_cons.mp hx with rfl | hx
      · refine Or.inr ⟨optLabel o.name j, hl, ?_⟩
        rw [natAbs_negCoe]
        exact lookupId_step (addClause_step _ _) (newVar_lookup (optLabel o.name j) s)
      rcases List.mem_cons.mp hx with rfl | hx
      · exact Or.inl rfl
      · simp at hx

theorem emitGroupTail_from (ir : IR) (j : Nat) (gname : String) (L : List String)
    (kvars : List Nat) (sA s2 : St)
    (hL2 : ∀ o ∈ (groupData ir gname).options, optLabel o.name j ∈ L)
    (hlook : ∀ v ∈ kvars, ∃ l ∈ L, lookupId sA l = some v)
    (h2 : StStep sA s2)
    (hbase : ∀ c ∈ s2.clauses, c ∈ sA.clauses ∨ ClauseFrom s2 L c) :
    ∀ c ∈ ((groupData ir gname).options.foldl (emitBanStep j)
        ((combos2 kvars).foldl emitAmoStep s2)).clauses,
      c ∈ sA.clauses ∨
      ClauseFrom ((groupData ir gname).options.foldl (emitBanStep j)
        ((combos2 kvars).foldl emitAmoStep s2)) L c := by
  intro c hc
  have hs3 : StStep s2 ((combos2 kvars).foldl emitAmoStep s2) :=
    foldl_step emitAmoStep_step (combos2 kvars) s2
  have hres : StStep ((combos2 kvars).foldl emitAmoStep s2)
      ((groupData ir gname).options.foldl (emitBanStep j)
        ((combos2 kvars).foldl emitAmoStep s2)) :=
    foldl_step (emitBanStep_step j) (groupData ir gname).options _
  rcases foldl_added_inv (emitBanStep j) (fun s c => ClauseFrom s L c) (fun _ => True)
      (emitBanStep_step j) (fun _ _ _ => trivial)
      (fun s s' c hss => clauseFrom_mono hss)
      (groupData ir gname).options
      (fun s o _ ho => emitBanStep_from L j s o (hL2 o ho))
      ((combos2 kvars).foldl emitAmoStep s2) trivial c hc with h | h
  · rcases foldl_added_inv emitAmoStep (fun s c => ClauseFrom s L c) (fun s => StStep sA s)
        emitAmoStep_step (fun s pr hss => StStep.trans hss (emitAmoStep_step s pr))
        (fun s s' c hss => clauseFrom_mono hss)
        (combos2 kvars)
        (fun s pr hss hpr => by
          obtain ⟨hm1, hm2⟩ := combos2_mem kvars pr.1 pr.2 hpr
          obtain ⟨l1, hl1, hv1⟩ := hlook pr.1 hm1
          obtain ⟨l2, hl2, hv2⟩ := hlook pr.2 hm2
          exact emitAmoStep_from L s pr ⟨l1, hl1, lookupId_step hss hv1⟩
            ⟨l2, hl2, lookupId_step hss hv2⟩)
        s2 h2 c h with h2c | h2c
    · rcases hbase c h2c with h3 | h3
      · exact Or.inl h3
      · exact Or.inr (clauseFrom_mono (StStep.trans hs3 hres) h3)
    · exact Or.inr (clauseFrom_mono hres h2c)
  · exact Or.inr h

theorem emitGroup_from (ir : IR) (gp : String) (j : Nat) (gname : String)
    (opts : List String) (st : St) (L : List String)
    (hL1 : ∀ o ∈ opts, optLabel o j ∈ L)
    (hL2 : ∀ o ∈ (groupData ir gname).options, optLabel o.name j ∈ L) :
    ∀ c ∈ (emitGroup ir gp j gname opts st).clauses,
      c ∈ st.clauses ∨ ClauseFrom (emitGroup ir gp j gname opts st) L c := by
  have hlook : ∀ v ∈ (allocVars opts j st).1,
      ∃ l ∈ L, lookupId (allocVars opts j st).2 l = some v := by
    intro v hv
    obtain ⟨o, ho, hlv⟩ := forall2_mem_right (allocVars_forall2 j opts st) v hv
    exact ⟨optLabel o j, hL1 o ho, hlv⟩
  cases hpol : (resolvePolicy ir gp gname opts == "exactly-one") with
  | false =>
    have hEG : emitGroup ir gp j gname opts st =
        (groupData ir gname).options.foldl (emitBanStep j)
          ((combos2 (allocVars opts j st).1).foldl emitAmoStep (allocVars opts j st).2) := by
      have hEG0 : emitGroup ir gp j gname opts st =
          (groupData ir gname).options.foldl (emitBanStep j)
            ((combos2 (allocVars opts j st).1).foldl emitAmoStep
              (if (resolvePolicy ir gp gname opts == "exactly-one") = true then
                addClause ((allocVars opts j st).1.map Int.ofNat ++ [0])
                  (allocVars opts j st).2
              else (allocVars opts j st).2)) := rfl
      rw [hEG0, hpol]
      rfl
    rw [hEG]
    intro c hc
    rcases emitGroupTail_from ir j gname L (allocVars opts j st).1
        (allocVars opts j st).2 (allocVars opts j st).2 hL2 hlook
        (StStep.refl _) (fun c' hc' => Or.inl hc') c hc with h | h
    · left
      rw [← allocVars_clauses j opts st]
      exact h
    · exact Or.inr h
  | true =>
    have hEG : emitGroup ir gp j gname opts st =
        (groupData ir gname).options.foldl (emitBanStep j)
          ((combos2 (allocVars opts j st).1).foldl emitAmoStep
            (addClause ((allocVars opts j st).1.map Int.ofNat ++ [0])
              (allocVars opts j st).2)) := by
      have hEG0 : emitGroup ir gp j gname opts st =
          (groupData ir gname).options.foldl (emitBanStep j)
            ((combos2 (allocVars opts j st).1).foldl emitAmoStep
              (if (resolvePolicy ir gp gname opts == "exactly-one") = true then
                addClause ((allocVars opts j st).1.map Int.ofNat ++ [0])
                  (allocVars opts j st).2
              else (allocVars opts j st).2)) := rfl
      rw [hEG0, hpol]
      rfl
    rw [hEG]
    intro c hc
    have hbase : ∀ c' ∈ (addClause ((allocVars opts j st).1.map Int.ofNat ++ [0])
          (allocVars opts j st).2).clauses,
        c' ∈ (allocVars opts j st).2.clauses ∨
        ClauseFrom (addClause ((allocVars opts j st).1.map Int.ofNat ++ [0])
          (allocVars opts j st).2) L c' := by
      intro c' hc'
      have hcl : (addClause ((allocVars opts j st).1.map Int.ofNat ++ [0])
            (allocVars opts j st).2).clauses
          = (allocVars opts j st).2.clauses
            ++ [(allocVars opts j st).1.map Int.ofNat ++ [0]] := rfl
      rw [hcl] at hc'
      rcases List.mem_append.mp hc' with h | h
      · exact Or.inl h
      · right
        have hce : c' = (allocVars opts j st).1.map Int.ofNat ++ [0] := by simpa using h
        subst hce
        intro x hx
        rcases List.mem_append.mp hx with hx | hx
        · obtain ⟨v, hvk, rfl⟩ := List.mem_map.mp hx
          obtain ⟨l, hl, hv⟩ := hlook v hvk
          refine Or.inr ⟨l, hl, ?_⟩
          rw [show (Int.ofNat v).natAbs = v from rfl]
          exact lookupId_step (addClause_step _ _) hv
        · left
          simpa using hx
    rcases emitGroupTail_from ir j gname L (allocVars opts j st).1
        (allocVars opts j st).2
        (addClause ((allocVars opts j st).1.map Int.ofNat ++ [0]) (allocVars opts j st).2)
        hL2 hlook (addClause_step _ _) hbase c hc with h | h
    · left
      rw [← allocVars_clauses j opts st]
      exact h
    · exact Or.inr h

theorem emitGroupsForSlot_from (ir : IR) (gp : String) (idx : Index) (j : Nat) (st : St)
    (L : List String)
    (hL : ∀ g ∈ idx.groups, (∀ o ∈ g.2, optLabel o j ∈ L) ∧
        (∀ o ∈ (groupData ir g.1).options, optLabel o.name j ∈ L)) :
    ∀ c ∈ (emitGroupsForSlot ir gp idx j st).clauses,
      c ∈ st.clauses ∨ ClauseFrom (emitGroupsForSlot ir gp idx j st) L c :=
  foldl_added_inv (emitGroupStep ir gp j) (fun s c => ClauseFrom s L c) (fun _ => True)
    (emitGroupStep_step ir gp j) (fun _ _ _ => trivial)
    (fun s s' c hss => clauseFrom_mono hss)
    idx.groups
    (fun s g _ hg => emitGroup_from ir gp j g.1 g.2 s L (hL g hg).1 (hL g hg).2)
    st trivial

theorem emitGroupConstraints_from (ir : IR) (gp : String) (idx : Index) (k : Int)
    (st : St) (L : List String)
    (hL : ∀ j ∈ slots k, ∀ g ∈ idx.groups, (∀ o ∈ g.2, optLabel o j ∈ L) ∧
        (∀ o ∈ (groupData ir g.1).options, optLabel o.name j ∈ L)) :
    ∀ c ∈ (emitGroupConstraints ir gp idx k st).clauses,
      c ∈ st.clauses ∨ ClauseFrom (emitGroupConstraints ir gp idx k st) L c :=
  foldl_added_inv (fun s j => emitGroupsForSlot ir gp idx j s)
    (fun s c => ClauseFrom s L c) (fun _ => True)
    (fun s j => emitGroupsForSlot_step ir gp idx j s) (fun _ _ _ => trivial)
    (fun s s' c hss => clauseFrom_mono hss)
    (slots k)
    (fun s j _ hj => emitGroupsForSlot_from ir gp idx j s L (hL j hj))
    st trivial

theorem stageGroups_from (ir : IR) (cfg : Config) :
    ∀ c ∈ (stageGroups ir cfg).clauses,
      ClauseFrom (stageGroups ir cfg) (biLabels ir cfg.k) c := by
  intro c hc
  have hL : ∀ j ∈ slots cfg.k, ∀ g ∈ (collectIr ir).groups,
      (∀ o ∈ g.2, optLabel o j ∈ biLabels ir cfg.k) ∧
      (∀ o ∈ (groupData ir g.1).options, optLabel o.name j ∈ biLabels ir cfg.k) := by
    intro j hj g hg
    constructor
    · intro o ho
      exact List.mem_append_left _ (mem_groupOptLabels1 ir (collectIr ir) cfg.k hj hg ho)
    · intro o ho
      exact List.mem_append_left _ (mem_groupOptLabels2 ir (collectIr ir) cfg.k hj hg ho)
  rcases emitGroupConstraints_from ir cfg.group_policy (collectIr ir) cfg.k initSt
      (biLabels ir cfg.k) hL c hc with h | h
  · simp [initSt] at h
  · exact h

theorem linkClauseStep_from (L : List String) (p j : Nat) (pl : String) (hpL : pl ∈ L)
    (s : St) (o : String) (ho : optLabel o j ∈ L) (hp : lookupId s pl = some p) :
    ∀ c ∈ (linkClauseStep p j s o).clauses,
      c ∈ s.clauses ∨ ClauseFrom (linkClauseStep p j s o) L c := by
  intro c hc
  have heq : linkClauseStep p j s o =
      addClause [-((optVar o j s).1 : Int), (p : Int), 0] (optVar o j s).2 := rfl
  rw [heq] at hc ⊢
  have hcl : (addClause [-((optVar o j s).1 : Int), (p : Int), 0] (optVar o j s).2).clauses
      = (optVar o j s).2.clauses ++ [[-((optVar o j s).1 : Int), (p : Int), 0]] := rfl
  rw [hcl] at hc
  rcases List.mem_append.mp hc with h | h
  · left
    rw [show (optVar o j s).2.clauses = s.clauses from newVar_clauses (optLabel o j) s] at h
    exact h
  · right
    have hce : c = [-((optVar o j s).1 : Int), (p : Int), 0] := by simpa using h
    subst hce
    intro x hx
    rcases List.mem_cons.mp hx with rfl | hx
    · refine Or.inr ⟨optLabel o j, ho, ?_⟩
      rw [natAbs_negCoe]
      exact lookupId_step (addClause_step _ _) (newVar_lookup (optLabel o j) s)
    rcases List.mem_cons.mp hx with rfl | hx
    · refine Or.inr ⟨pl, hpL, ?_⟩
      rw [show ((p : Int)).natAbs = p from rfl]
      exact lookupId_step (addClause_step _ _) (lookupId_step (optVar_step o j s) hp)
    rcases List.mem_cons.mp hx with rfl | hx
    · exact Or.inl rfl
    · simp at hx

theorem linkPropTail_from (L : List String) (j : Nat) (pl : String) (p : Nat)
    (os : List String) (s0 : St) (hpL : pl ∈ L) (hol : ∀ o ∈ os, optLabel o j ∈ L)
    (hp0 : lookupId s0 pl = some p) :
    ∀ c ∈ (addClause ([-(p : Int)] ++
        (allocVars os j (os.foldl (linkClauseStep p j) s0)).1.map Int.ofNat ++ [0])
        (allocVars os j (os.foldl (linkClauseStep p j) s0)).2).clauses,
      c ∈ s0.clauses ∨ ClauseFrom (addClause ([-(p : Int)] ++
        (allocVars os j (os.foldl (linkClauseStep p j) s0)).1.map Int.ofNat ++ [0])
        (allocVars os j (os.foldl (linkClauseStep p j) s0)).2) L c := by
  intro c hc
  have hs1 : StStep s0 (os.foldl (linkClauseStep p j) s0) :=
    foldl_step (linkClauseStep_step p j) os s0
  have hs2 : StStep (os.foldl (linkClauseStep p j) s0)
      (allocVars os j (os.foldl (linkClauseStep p j) s0)).2 :=
    allocVars_step os j _
  have hcl : (addClause ([-(p : Int)] ++
        (allocVars os j (os.foldl (linkClauseStep p j) s0)).1.map Int.ofNat ++ [0])
        (allocVars os j (os.foldl (linkClauseStep p j) s0)).2).clauses
      = (allocVars os j (os.foldl (linkClauseStep p j) s0)).2.clauses
        ++ [[-(p : Int)] ++
          (allocVars os j (os.foldl (linkClauseStep p j) s0)).1.map Int.ofNat ++ [0]] := rfl
  rw [hcl] at hc
  rcases List.mem_append.mp hc with h | h
  · rw [allocVars_clauses j os] at h
    rcases foldl_added_inv (linkClauseStep p j) (fun s c => ClauseFrom s L c)
        (fun s => lookupId s pl = some p)
        (linkClauseStep_step p j)
        (fun s o hi => lookupId_step (linkClauseStep_step p j s o) hi)
        (fun s s' c hss => clauseFrom_mono hss)
        os
        (fun s o hi ho => linkClauseStep_from L p j pl hpL s o (hol o ho) hi)
        s0 hp0 c h with h2 | h2
    · exact Or.inl h2
    · exact Or.inr (clauseFrom_mono (StStep.trans hs2 (addClause_step _ _)) h2)
  · right
    have hce : c = [-(p : Int)] ++
        (allocVars os j (os.foldl (linkClauseStep p j) s0)).1.map Int.ofNat ++ [0] := by
      simpa using h
    subst hce
    intro x hx
    rcases List.mem_append.mp hx with hx | hx
    rcases List.mem_append.mp hx with hx | hx
    · have hxe : x = -(p : Int) := by simpa using hx
      subst hxe
      refine Or.inr ⟨pl, hpL, ?_⟩
      rw [natAbs_negCoe]
      exact lookupId_step (addClause_step _ _)
        (lookupId_step hs2 (lookupId_step hs1 hp0))
    · obtain ⟨v, hvk, rfl⟩ := List.mem_map.mp hx
      obtain ⟨o, ho, hlv⟩ := forall2_mem_right (allocVars_forall2 j os _) v hvk
      refine Or.inr ⟨optLabel o j, hol o ho, ?_⟩
      rw [show (Int.ofNat v).natAbs = v from rfl]
      exact lookupId_step (addClause_step _ _) hlv
    · left
      simpa using hx

theorem emitLinkProp_from (L : List String) (j : Nat) (st : St)
    (pr : String × List String)
    (hpl : propLabel pr.1 j ∈ L) (hol : ∀ o ∈ pr.2, optLabel o j ∈ L) :
    ∀ c ∈ (emitLinkProp j st pr).clauses,
      c ∈ st.clauses ∨ ClauseFrom (emitLinkProp j st pr) L c := by
  intro c hc
  rcases linkPropTail_from L j (propLabel pr.1 j) (propVar pr.1 j st).1 pr.2
      (propVar pr.1 j st).2 hpl hol (newVar_lookup (propLabel pr.1 j) st) c hc with h | h
  · left
    rw [show (propVar pr.1 j st).2.clauses = st.clauses from
      newVar_clauses (propLabel pr.1 j) st] at h
    exact h
  · exact Or.inr h

theorem emitLinksSlot_from (L : List String) (idx : Index) (j : Nat) (st : St)
    (hL : ∀ pr ∈ idx.propertyToOptions,
        propLabel pr.1 j ∈ L ∧ ∀ o ∈ pr.2, optLabel o j ∈ L) :
    ∀ c ∈ (emitLinksSlot idx j st).clauses,
      c ∈ st.clauses ∨ ClauseFrom (emitLinksSlot idx j st) L c :=
  foldl_added_inv (emitLinkProp j) (fun s c => ClauseFrom s L c) (fun _ => True)
    (emitLinkProp_step j) (fun _ _ _ => trivial)
    (fun s s' c hss => clauseFrom_mono hss)
    idx.propertyToOptions
    (fun s pr _ hpr => emitLinkProp_from L j s pr (hL pr hpr).1 (hL pr hpr).2)
    st trivial

theorem emitAntPair_added (j : Nat) (st : St) (ab : String × String) :
    ∀ c ∈ (emitAntPair j st ab).clauses, c ∈ st.clauses ∨ AntPairShape c := by
  intro c hc
  have heq : (emitAntPair j st ab).clauses =
      (propVar ab.2 j (propVar ab.1 j st).2).2.clauses ++
      [[-((propVar ab.1 j st).1 : Int),
        -((propVar ab.2 j (propVar ab.1 j st).2).1 : Int), 0]] := rfl
  rw [heq] at hc
  rcases List.mem_append.mp hc with h | h
  · left
    rw [show (propVar ab.2 j (propVar ab.1 j st).2).2.clauses
          = (propVar ab.1 j st).2.clauses from newVar_clauses _ _,
        show (propVar ab.1 j st).2.clauses = st.clauses from newVar_clauses _ _] at h
    exact h
  · right
    have hce : c = [-((propVar ab.1 j st).1 : Int),
        -((propVar ab.2 j (propVar ab.1 j st).2).1 : Int), 0] := by simpa using h
    exact ⟨_, _, hce⟩

theorem emitPropsSlot_from (L : List String) (idx : Index)
    (ants : List (String × String)) (j : Nat) (st : St)
    (hL : ∀ pr ∈ idx.propertyToOptions,
        propLabel pr.1 j ∈ L ∧ ∀ o ∈ pr.2, optLabel o j ∈ L) :
    ∀ c ∈ (emitPropsSlot idx ants j st).clauses,
      c ∈ st.clauses ∨ ClauseFrom (emitPropsSlot idx ants j st) L c ∨ AntPairShape c := by
  intro c hc
  rcases foldl_added_inv (emitAntPair j) (fun _ c => AntPairShape c) (fun _ => True)
      (emitAntPair_step j) (fun _ _ _ => trivial)
      (fun _ _ _ _ h => h)
      (antonymPairs ants)
      (fun s ab _ _ => emitAntPair_added j s ab)
      (emitLinksSlot idx j st) trivial c hc with h | h
  · rcases emitLinksSlot_from L idx j st hL c h with h2 | h2
    · exact Or.inl h2
    · exact Or.inr (Or.inl (clauseFrom_mono (emitAntonymsSlot_step ants j _) h2))
  · exact Or.inr (Or.inr h)

theorem emitPropertyLinks_from (idx : Index) (ants : List (String × String))
    (k : Int) (st : St) (L : List String)
    (hL : ∀ j ∈ slots k, ∀ pr ∈ idx.propertyToOptions,
        propLabel pr.1 j ∈ L ∧ ∀ o ∈ pr.2, optLabel o j ∈ L) :
    ∀ c ∈ (emitPropertyLinks idx ants k st).clauses,
      c ∈ st.clauses ∨ ClauseFrom (emitPropertyLinks idx ants k st) L c ∨ AntPairShape c :=
  foldl_added_inv (fun s j => emitPropsSlot idx ants j s)
    (fun s c => ClauseFrom s L c ∨ AntPairShape c) (fun _ => True)
    (fun s j => emitPropsSlot_step idx ants j s) (fun _ _ _ => trivial)
    (fun s s' c hss h => h.imp (clauseFrom_mono hss) id)
    (slots k)
    (fun s j _ hj => emitPropsSlot_from L idx ants j s (hL j hj))
    st trivial

theorem stageProps_char (ir : IR) (cfg : Config) :
    ∀ c ∈ (stageProps ir cfg).clauses,
      ClauseFrom (stageProps ir cfg) (biLabels ir cfg.k) c ∨ AntPairShape c := by
  intro c hc
  have hL : ∀ j ∈ slots cfg.k, ∀ pr ∈ (collectIr ir).propertyToOptions,
      propLabel pr.1 j ∈ biLabels ir cfg.k ∧
      ∀ o ∈ pr.2, optLabel o j ∈ biLabels ir cfg.k := by
    intro j hj pr hpr
    refine ⟨List.mem_append_right _ (mem_linkLabels_prop (collectIr ir) cfg.k hj hpr), ?_⟩
    intro o ho
    exact List.mem_append_right _ (mem_linkLabels_opt (collectIr ir) cfg.k hj hpr ho)
  rcases emitPropertyLinks_from (collectIr ir) cfg.antonyms cfg.k (stageGroups ir cfg)
      (biLabels ir cfg.k) hL c hc with h | h
  · left
    exact clauseFrom_mono (emitPropertyLinks_step (collectIr ir) cfg.antonyms cfg.k _)
      (stageGroups_from ir cfg c h)
  · exact h

/-- C10: a name π that appears in the antonyms mapping but is asserted by no
option still gets its per-slot property variable p(π,j) allocated and the
antonym exclusivity clause ¬p(a,j) ∨ ¬p(b,j) is emitted for every slot
j ∈ [1..K]; provided the label of p(π,j) differs from every label used by
group constraints and property links, every clause of the group and
property-link stages that mentions p(π,j) is an antonym exclusivity clause
(two negated variables followed by the stored 0, one of them ¬p(π,j)), so
no bi-implication link clause constrains p(π,j); encoding succeeded for the
given input (hypothesis hrun), as the concrete witness also shows. -/
theorem c10_antonym_only_properties (ir : IR) (cfg : Config) (st : St)
    (hrun : encodeSt ir cfg = .ok st)
    (a b π : String) (hab : (a, b) ∈ antonymPairs cfg.antonyms)
    (hπ : π = a ∨ π = b)
    (hun : ∀ pr ∈ (collectIr ir).propertyToOptions, pr.1 ≠ π)
    (j : Nat) (hj : j ∈ slots cfg.k)
    (hlab : propLabel π j ∉ biLabels ir cfg.k) :
    (∃ pid, lookupId st (propLabel π j) = some pid) ∧
    (∃ pa pb, lookupId st (propLabel a j) = some pa ∧
      lookupId st (propLabel b j) = some pb ∧
      [-(pa : Int), -(pb : Int), 0] ∈ st.clauses) ∧
    (∀ pid, lookupId st (propLabel π j) = some pid →
      ∀ c ∈ (stageProps ir cfg).clauses, (∃ x ∈ c, x ≠ 0 ∧ x.natAbs = pid) →
        ∃ x y : Nat, c = [-(x : Int), -(y : Int), 0] ∧ (x = pid ∨ y = pid)) := by
  have hstep : StStep (stageProps ir cfg) st := (encodeSt_good ir cfg hrun).2
  have hfam : AntFamily j (a, b) (stageProps ir cfg) :=
    emitPropertyLinks_antFamily (collectIr ir) cfg.antonyms cfg.k (stageGroups ir cfg)
      j hj (a, b) hab
  obtain ⟨pa, pb, hpa, hpb, hcl⟩ := hfam
  have hπs : ∃ q, lookupId (stageProps ir cfg) (propLabel π j) = some q := by
    rcases hπ with rfl | rfl
    · exact ⟨pa, hpa⟩
    · exact ⟨pb, hpb⟩
  obtain ⟨q, hq⟩ := hπs
  refine ⟨⟨q, lookupId_step hstep hq⟩,
    ⟨pa, pb, lookupId_step hstep hpa, lookupId_step hstep hpb,
      clause_mem_step hstep hcl⟩, ?_⟩
  intro pid hpid c hc hex
  obtain ⟨x, hx, hx0, hxn⟩ := hex
  have hqq : pid = q := by
    have hq2 := lookupId_step hstep hq
    rw [hpid] at hq2
    exact Option.some.inj hq2
  rcases stageProps_char ir cfg c hc with hcf | hshape
  · exfalso
    rcases hcf x hx with h0 | ⟨l, hlm, hlv⟩
    · exact hx0 h0
    · rw [hxn, hqq] at hlv
      exact hlab (lookup_inj (stageProps_good ir cfg).1 hlv hq ▸ hlm)
  · obtain ⟨x0, y0, hce⟩ := hshape
    refine ⟨x0, y0, hce, ?_⟩
    subst hce
    rcases List.mem_cons.mp hx with rfl | hx
    · left
      have : (-(x0 : Int)).natAbs = pid := hxn
      rw [natAbs_negCoe] at this
      exact this
    rcases List.mem_cons.mp hx with rfl | hx
    · right
      have : (-(y0 : Int)).natAbs = pid := hxn
      rw [natAbs_negCoe] at this
      exact this
    rcases List.mem_cons.mp hx with rfl | hx
    · exact absurd rfl hx0
    · simp at hx

/-- One group with one option, antonyms {X: Y} on properties no option
asserts. -/
def exC10 : IR :=
  { parameters := [("A", { options := [{ name := "a1" }] })] }

def cfgC10 : Config := { t := 1, k := 1, antonyms := [("X", "Y")] }

def stC10 : St :=
  { nextVar := 6,
    table := [("v:a1@1", 1), ("p:X@1", 2), ("p:Y@1", 3), ("c:a1", 4), ("a#5", 5)],
    clauses := [[-2, -3, 0],
                [-5, 1, 0], [-1, 5, 0], [5, 4, 0], [-4, 5, 0], [4, 0]],
    covMap := [(["a1"], 4)] }

theorem c10_antonym_only_properties_witness :
    encodeSt exC10 cfgC10 = .ok stC10 ∧
    (∃ pid, lookupId stC10 (propLabel "X" 1) = some pid) ∧
    (∃ pa pb, lookupId stC10 (propLabel "X" 1) = some pa ∧
      lookupId stC10 (propLabel "Y" 1) = some pb ∧
      [-(pa : Int), -(pb : Int), 0] ∈ stC10.clauses) := by
  have h := c10_antonym_only_properties exC10 cfgC10 stC10 rfl "X" "Y" "X"
    (by decide) (Or.inl rfl) (by decide) 1 (by decide) (by decide)
  exact ⟨rfl, h.1, h.2.1⟩
